import Mathlib

/-!
# xbm2nokia: layout converter, frame differencer and diff playback

A shallow embedding of `xbm2nokia.c` (the build-time converter) and of the
diff playback of `example/v2/nokia_lcd.c`.

Conventions of the embedding:

* a byte buffer (`uint8_t *`) is a `List Nat`; a read `buf[i]` is `buf.getD i 0`
  and a write `buf[i] = v` is `buf.set i v` (an access outside the buffer is
  undefined in C: here such a read gives `0` and such a write is dropped);
* the dimensions `xbm2nokia_frame_width` and `xbm2nokia_frame_height` come from
  the generated header `xbm2nokia.h`; they are the parameters `W` and `H`, of
  C type `int`, hence `Int` here;
* `int` and `size_t` arithmetic is exact (signed overflow is undefined in C);
  loop counters and locals that only ever hold non-negative values are `Nat`;
* the unsigned 8 and 16 bit fields wrap: a store into them is taken modulo
  `256` resp. `65536`;
* a `for` loop with counter `i = 0 .. n-1` is a left fold over `List.range n`.
-/

namespace Xbm2Nokia

/-! ## Data model (`xbm2nokia.c`, lines 29-39) -/

/-- Chunk size, in entries, of the diff storage: `#define DIFF_REALLOC 16`. -/
def DIFF_REALLOC : Nat := 16

/-- One changed byte, `struct diff`: `addr` is a `uint16_t`, `data` a `uint8_t`. -/
structure diff where
  addr : Nat
  data : Nat
deriving DecidableEq

/-- A frame transition, `struct frame`: `diffcnt` is a `uint16_t`; `diffs` is the
heap block behind the pointer, its length being the allocated capacity in
entries (the null pointer is the empty block). -/
structure frame where
  diffcnt : Nat
  diffs : List diff
deriving DecidableEq

/-! ## `bytes` and `frame_alloc` (`xbm2nokia.c`, lines 49-82) -/

/-- The function `bytes`: `(int) (value / 8.0)` is the quotient truncated toward
zero (the division in `double` is exact for every `int`), then one is added
unless the division was exact. -/
def bytes (value : Int) : Int :=
  let b := Int.tdiv value 8
  if b * 8 = value then b else b + 1

/-- The library call `realloc(p, n * sizeof(struct diff))`: the first `n` entries
are kept, new entries (indeterminate in C) are zero entries. -/
def realloc (p : List diff) (n : Nat) : List diff :=
  p.take n ++ List.replicate (n - p.length) { addr := 0, data := 0 }

/-- The function `frame_alloc`: when `diffcnt` is a multiple of `DIFF_REALLOC`,
the storage is resized to `diffcnt + DIFF_REALLOC` entries. -/
def frame_alloc (fr : frame) : frame :=
  if fr.diffcnt % DIFF_REALLOC = 0 then
    { fr with diffs := realloc fr.diffs (fr.diffcnt + DIFF_REALLOC) }
  else fr

/-! ## `rotate_flip` (`xbm2nokia.c`, lines 90-125) -/

/-- The variables of `rotate_flip` that live across loop iterations: the output
buffer, the accumulator `out_byte` and `height_byte` (which is read after the
inner loop). -/
structure rf_state where
  out : List Nat
  out_byte : Nat
  height_byte : Nat

/-- Body of the inner loop of `rotate_flip` (lines 106-120), for column `width`
and row `height`. -/
def rotate_flip_body (W H : Int) (data_in : List Nat) (width : Nat)
    (st : rf_state) (height : Nat) : rf_state :=
  let width_off := bytes W
  let height_off := bytes H
  let width_byte := width / 8
  let width_bit := width - (width_byte * 8)
  let data_byte := data_in.getD ((height : Int) * width_off + width_byte).toNat 0
  let data_value := (data_byte >>> width_bit) &&& 0x01
  let height_byte := height / 8
  let height_bit := height - (height_byte * 8)
  let out_byte := (st.out_byte ||| (data_value <<< height_bit)) % 256
  if height_bit = 7 ∧ (height : Int) < H - 1 then
    { out := st.out.set ((width : Int) * height_off + height_byte).toNat out_byte,
      out_byte := 0,
      height_byte := height_byte }
  else
    { out := st.out, out_byte := out_byte, height_byte := height_byte }

/-- Body of the outer loop of `rotate_flip` (lines 104-123), for column `width`:
the accumulator is cleared, the rows are walked, the last byte is stored. -/
def rotate_flip_column (W H : Int) (data_in : List Nat) (st : rf_state)
    (width : Nat) : rf_state :=
  let st1 := (List.range H.toNat).foldl (rotate_flip_body W H data_in width)
    { st with out_byte := 0 }
  { st1 with
    out := st1.out.set ((width : Int) * bytes H + st1.height_byte).toNat st1.out_byte }

/-- The function `rotate_flip`: the buffer `out` after the call. `out_byte` and
`height_byte` are uninitialised at entry in C; they start at `0` here
(`height_byte` is only read before being assigned when `H <= 0`). -/
def rotate_flip (W H : Int) (data_in out : List Nat) : List Nat :=
  ((List.range W.toNat).foldl (rotate_flip_column W H data_in)
    { out := out, out_byte := 0, height_byte := 0 }).out

/-! ## `arrange_mem` (`xbm2nokia.c`, lines 143-163) -/

/-- The variables of `arrange_mem` that live across loop iterations. `writes`
is a ghost field, not in the C code: the values of `out_index` at which `out`
was written, in order. -/
structure am_state where
  out : List Nat
  rotate_row : Nat
  out_index : Nat
  writes : List Nat

/-- Body of the inner loop of `arrange_mem` (lines 154-160). -/
def arrange_mem_body (row_count : Int) (inp : List Nat) (row : Nat)
    (st : am_state) (idx : Nat) : am_state :=
  let st1 : am_state :=
    if st.rotate_row = row then
      { st with
        out := st.out.set st.out_index (inp.getD idx 0),
        out_index := st.out_index + 1,
        writes := st.writes ++ [st.out_index] }
    else st
  if ((st1.rotate_row + 1 : Nat) : Int) = row_count then
    { st1 with rotate_row := 0 }
  else
    { st1 with rotate_row := st1.rotate_row + 1 }

/-- Body of the outer loop of `arrange_mem` (lines 153-161), for band `row`. -/
def arrange_mem_row (row_count : Int) (inp : List Nat) (buflen : Nat)
    (st : am_state) (row : Nat) : am_state :=
  (List.range buflen).foldl (arrange_mem_body row_count inp row) st

/-- The loops of `arrange_mem`, with `row_count = bytes(xbm2nokia_frame_height)`:
the final state, holding the output buffer, `out_index` and the write log. -/
def arrange_mem_run (H : Int) (inp out : List Nat) (buflen : Nat) : am_state :=
  let row_count := bytes H
  (List.range row_count.toNat).foldl (arrange_mem_row row_count inp buflen)
    { out := out, rotate_row := 0, out_index := 0, writes := [] }

/-- The function `arrange_mem`: the buffer `out` after the call. -/
def arrange_mem (H : Int) (inp out : List Nat) (buflen : Nat) : List Nat :=
  (arrange_mem_run H inp out buflen).out

/-! ## Keyframes (`xbm2nokia.c`, lines 173-234) -/

/-- The function `print_keyframe`, reduced to its numeric content: the bytes
`buffer[0]`, ..., `buffer[buflen-1]` in the order they are printed. -/
def print_keyframe (buffer : List Nat) (buflen : Nat) : List Nat :=
  (List.range buflen).map (fun i => buffer.getD i 0)

/-- The buffer size computed by `process_keyframe` and
`process_frame_transistion`: `bytes(xbm2nokia_frame_height) * xbm2nokia_frame_width`
converted to `size_t`. A negative product, which the conversion turns into a
huge `size_t` in C, is `0` here; the statements on non-positive dimensions
assume a non-negative product. -/
def buflen (W H : Int) : Nat := (bytes H * W).toNat

/-- The conversion of one bitmap as both `process_keyframe` and
`process_frame_transistion` run it: two zeroed buffers (`calloc`), then
`rotate_flip`, then `arrange_mem`. -/
def convert (W H : Int) (data_in : List Nat) : List Nat :=
  let rotbuf := List.replicate (buflen W H) 0
  let outbuf := List.replicate (buflen W H) 0
  let rotbuf := rotate_flip W H data_in rotbuf
  arrange_mem H rotbuf outbuf (buflen W H)

/-- The function `process_keyframe`: the bytes it prints for the bitmap
`xbm2nokia_frame1_data`. -/
def process_keyframe (W H : Int) (frame1_data : List Nat) : List Nat :=
  print_keyframe (convert W H frame1_data) (buflen W H)

/-! ## Frame transitions (`xbm2nokia.c`, lines 195-277) -/

/-- Body of the diff loop of `process_frame_transistion` (lines 262-267) at
address `i`: `frame_alloc`, then the entry is written at index `diffcnt`, which
is incremented (a `uint16_t`); `addr` is a `uint16_t` as well. -/
def diff_body (outbuf1 outbuf2 : List Nat) (fr : frame) (i : Nat) : frame :=
  if outbuf1.getD i 0 ≠ outbuf2.getD i 0 then
    let fr1 := frame_alloc fr
    { diffcnt := (fr1.diffcnt + 1) % 65536,
      diffs := fr1.diffs.set fr1.diffcnt { addr := i % 65536, data := outbuf2.getD i 0 } }
  else fr

/-- The diff loop of `process_frame_transistion` (lines 251 and 261-268) over the
two converted buffers, from the zeroed frame. -/
def diff_loop (outbuf1 outbuf2 : List Nat) (buflen : Nat) : frame :=
  (List.range buflen).foldl (diff_body outbuf1 outbuf2) { diffcnt := 0, diffs := [] }

/-- The function `print_frame_transistion`, reduced to its numeric content: the
entries `diffs[0]`, ..., `diffs[diffcnt-1]` in the order they are printed. This is
the diff list of the frame. -/
def print_frame_transistion (fr : frame) : List diff :=
  (List.range fr.diffcnt).map (fun i => fr.diffs.getD i { addr := 0, data := 0 })

/-- The function `process_frame_transistion`: the frame built from the bitmaps
`xbm2nokia_frame1_data` and `xbm2nokia_frame2_data`. -/
def process_frame_transistion (W H : Int) (frame1_data frame2_data : List Nat) : frame :=
  diff_loop (convert W H frame1_data) (convert W H frame2_data) (buflen W H)

/-! ## Diff playback on the device (`example/v2/nokia_lcd.c`, `nokia_gfx.h`) -/

/-- One changed byte as stored on the device, `struct nokia_gfx_diff`: `addr` is
a `uint16_t`, `data` a `uint8_t`. -/
structure nokia_gfx_diff where
  addr : Nat
  data : Nat
deriving DecidableEq

/-- A frame transition as stored on the device, `struct nokia_gfx_frame`: `delay`
and `diffcnt` are `uint16_t`, `diffs` is the flexible array member. -/
structure nokia_gfx_frame where
  delay : Nat
  diffcnt : Nat
  diffs : List nokia_gfx_diff
deriving DecidableEq

/-- One byte handed to the SPI transport: `cmd b` is `spi_send_command(b)` and
`dat b` is `spi_send_data(b)`. -/
inductive spi_op where
  | cmd (b : Nat)
  | dat (b : Nat)
deriving DecidableEq

/-- The page computed by `nokia_lcd_update_diff` (line 189):
`y = diff.addr / 84`, stored in a `uint8_t`. -/
def update_diff_y (addr : Nat) : Nat := (addr / 84) % 256

/-- The column computed by `nokia_lcd_update_diff` (line 190):
`x = diff.addr - ((uint16_t) (y * 84))`: the product is cut to 16 bits by the
cast, and the difference is stored in a `uint8_t`, hence taken modulo `256`. -/
def update_diff_x (addr : Nat) : Nat :=
  (((addr : Int) - ((update_diff_y addr * 84 : Nat) : Int) % 65536) % 256).toNat

/-- Body of the loop of `nokia_lcd_update_diff` (lines 185-193) for entry `i`:
the three bytes sent are appended to the transport log. -/
def update_diff_body (fr : nokia_gfx_frame) (ops : List spi_op) (i : Nat) : List spi_op :=
  let d := fr.diffs.getD i { addr := 0, data := 0 }
  let y := update_diff_y d.addr
  let x := update_diff_x d.addr
  ops ++ [spi_op.cmd ((0x80 ||| x) % 256), spi_op.cmd ((0x40 ||| y) % 256), spi_op.dat d.data]

/-- The function `nokia_lcd_update_diff`: the bytes sent to the transport, in order. -/
def nokia_lcd_update_diff (fr : nokia_gfx_frame) : List spi_op :=
  (List.range fr.diffcnt).foldl (update_diff_body fr) []

/-- The display width in pixels: `#define LCD_X_RES 84`. -/
def LCD_X_RES : Nat := 84

/-- The display height in pixels: `#define LCD_Y_RES 48`. -/
def LCD_Y_RES : Nat := 48

/-- Body of the outer loop of `nokia_lcd_fullscreen` (lines 131-136) for page `y`:
the two cursor commands, then the `LCD_X_RES` data bytes of the page. -/
def fullscreen_page (data : List Nat) (ops : List spi_op) (y : Nat) : List spi_op :=
  (List.range LCD_X_RES).foldl
    (fun o x => o ++ [spi_op.dat (data.getD (y * LCD_X_RES + x) 0)])
    (ops ++ [spi_op.cmd 0x80, spi_op.cmd ((0x40 ||| y) % 256)])

/-- The function `nokia_lcd_fullscreen`: the bytes sent to the transport, in order. -/
def nokia_lcd_fullscreen (data : List Nat) : List spi_op :=
  (List.range (LCD_Y_RES / 8)).foldl (fullscreen_page data) []

/-! ## Program entry and ghost instrumentation of the converter -/

/-- The lines 263-266 of `process_frame_transistion`, which append the entry
`(i, data)` to the frame: `frame_alloc`, then the entry is written at index
`diffcnt`, which is incremented. -/
def append_diff (fr : frame) (i data : Nat) : frame :=
  let fr1 := frame_alloc fr
  { diffcnt := (fr1.diffcnt + 1) % 65536,
    diffs := fr1.diffs.set fr1.diffcnt { addr := i % 65536, data := data } }

/-- The function `main` when `XBM2NOKIA_FRAME` is defined: `process_keyframe` is
run unconditionally and `main` returns `0`. The result is the bytes printed
and the exit status. -/
def main_keyframe (W H : Int) (frame1_data : List Nat) : List Nat × Int :=
  (process_keyframe W H frame1_data, 0)

/-- The function `main` when `XBM2NOKIA_FRAME` is not defined:
`process_frame_transistion` is run unconditionally and `main` returns `0`. The
result is the entries printed and the exit status. -/
def main_transistion (W H : Int) (frame1_data frame2_data : List Nat) : List diff × Int :=
  (print_frame_transistion (process_frame_transistion W H frame1_data frame2_data), 0)

/-- The state of `rotate_flip` together with two ghost logs, not in the C code:
the indices at which `data_in` was read and the indices at which `out` was
written, in order, as the `int` values the code computes. -/
structure rf_trace where
  st : rf_state
  reads : List Int
  writes : List Int

/-- Body of the inner loop of `rotate_flip` with the access logs: the state
steps as in `rotate_flip_body`; line 109 reads `data_in` at
`height * width_off + width_byte` and line 118 writes `out` at
`width * height_off + height_byte`. -/
def rotate_flip_body_trace (W H : Int) (data_in : List Nat) (width : Nat)
    (t : rf_trace) (height : Nat) : rf_trace :=
  { st := rotate_flip_body W H data_in width t.st height,
    reads := t.reads ++ [(height : Int) * bytes W + ((width / 8 : Nat) : Int)],
    writes :=
      if height - (height / 8 * 8) = 7 ∧ (height : Int) < H - 1 then
        t.writes ++ [(width : Int) * bytes H + ((height / 8 : Nat) : Int)]
      else t.writes }

/-- Body of the outer loop of `rotate_flip` with the access logs: as
`rotate_flip_column`; line 123 writes `out` at `width * height_off + height_byte`. -/
def rotate_flip_column_trace (W H : Int) (data_in : List Nat) (t : rf_trace)
    (width : Nat) : rf_trace :=
  let t1 := (List.range H.toNat).foldl (rotate_flip_body_trace W H data_in width)
    { t with st := { t.st with out_byte := 0 } }
  { st := { t1.st with
      out := t1.st.out.set ((width : Int) * bytes H + t1.st.height_byte).toNat t1.st.out_byte },
    reads := t1.reads,
    writes := t1.writes ++ [(width : Int) * bytes H + (t1.st.height_byte : Int)] }

/-- The function `rotate_flip` with the access logs. -/
def rotate_flip_trace (W H : Int) (data_in out : List Nat) : rf_trace :=
  (List.range W.toNat).foldl (rotate_flip_column_trace W H data_in)
    { st := { out := out, out_byte := 0, height_byte := 0 }, reads := [], writes := [] }

/-! ## Reference notions used to state the properties -/

/-- The addresses below `n` at which the two buffers differ, in increasing order. -/
def differing (prev next : List Nat) (n : Nat) : List Nat :=
  (List.range n).filter (fun i => decide (prev.getD i 0 ≠ next.getD i 0))

/-- The entries `(i, next[i])` over the addresses `i < n` at which the two
buffers differ, in scan order. -/
def expected_diffs (prev next : List Nat) (n : Nat) : List diff :=
  (differing prev next n).map (fun i => { addr := i, data := next.getD i 0 })

/-- Modelled from the spec: the application of a FrameDiff onto a buffer
(`buffer[addr] := data` for each entry, in order). In `example/v2/nokia_lcd.c`
the store `nokia_lcd_memory[diff.addr] = diff.data` is commented out, and the
implementation file of `example/v1`, whose header declares `nokia_lcd_memory`,
is not among the sources. -/
def apply_diff (buffer : List Nat) (d : List diff) : List Nat :=
  d.foldl (fun b e => b.set e.addr e.data) buffer

/-- The source pixel at column `x`, row `y` of a bitmap whose rows are `wb`
bytes: bit `x mod 8` of byte `wb*y + x/8`, as `0` or `1`. -/
def src_bit (data : List Nat) (wb x y : Nat) : Nat :=
  (data.getD (y * wb + x / 8) 0 >>> (x % 8)) &&& 1

/-- The byte accumulated from the first `c` rows of band `k` in column `x`:
row `8k + i` goes to bit `i`. -/
def acc_byte (data : List Nat) (wb x k : Nat) : Nat → Nat
  | 0 => 0
  | c + 1 => (acc_byte data wb x k c ||| (src_bit data wb x (8 * k + c) <<< c)) % 256

/-- The data bytes of a transport log, in order (the commands are dropped). -/
def spi_data_bytes (ops : List spi_op) : List Nat :=
  ops.filterMap (fun op => match op with
    | spi_op.dat b => some b
    | spi_op.cmd _ => none)

/-- The bytes `nokia_lcd_fullscreen` is expected to send for page `y`: the cursor
commands `0x80` and `0x40|y`, then `data[84*y + 0]`, ..., `data[84*y + 83]`. -/
def expected_page (data : List Nat) (y : Nat) : List spi_op :=
  [spi_op.cmd 0x80, spi_op.cmd (0x40 ||| y)]
    ++ (List.range 84).map (fun x => spi_op.dat (data.getD (84 * y + x) 0))

/-- The bytes `nokia_lcd_update_diff` is expected to send for one entry: the
cursor commands `0x80|x` and `0x40|y` with `y = addr/84`, `x = addr - 84*y`,
then the value of the entry. -/
def expected_update (e : nokia_gfx_diff) : List spi_op :=
  [spi_op.cmd (0x80 ||| (e.addr - 84 * (e.addr / 84))), spi_op.cmd (0x40 ||| (e.addr / 84)),
    spi_op.dat e.data]

/-- The frame after the entries `es` (pairs of a scan index and a byte) have
been appended to `fr`, one after the other, by `append_diff`. -/
def append_diffs (fr : frame) (es : List (Nat × Nat)) : frame :=
  es.foldl (fun f e => append_diff f e.1 e.2) fr

/-! ## Lemmas on lists -/

theorem take_succ_set {α : Type} (l : List α) (c : Nat) (e : α) (h : c < l.length) :
    (l.set c e).take (c + 1) = l.take c ++ [e] := by
  rw [List.take_succ, List.set_eq_take_cons_drop e h]
  have hl : (List.take c l).length = c := by simp; omega
  rw [List.take_append_of_le_length (by omega), List.take_take, Nat.min_self,
    List.getElem?_append_right (by omega)]
  simp [hl]

theorem map_getD_range {α : Type} (l : List α) (d : α) (k : Nat) (h : k ≤ l.length) :
    (List.range k).map (fun i => l.getD i d) = l.take k := by
  apply List.ext_getElem?
  intro n
  by_cases hn : n < k
  · have hn2 : n < l.length := by omega
    simp [List.getElem?_map, List.getElem?_range hn, List.getElem?_take, hn, hn2]
  · simp [List.getElem?_take, hn]
    omega

/-! ## Lemmas on `frame_alloc` and the diff loop -/

theorem realloc_length (p : List diff) (n : Nat) : (realloc p n).length = n := by
  simp [realloc]; omega

theorem realloc_take (p : List diff) (n c : Nat) (h1 : c ≤ p.length) (h2 : c ≤ n) :
    (realloc p n).take c = p.take c := by
  unfold realloc
  rw [List.take_append_of_le_length (by simp; omega), List.take_take]
  congr 1; omega

theorem frame_alloc_diffcnt (fr : frame) : (frame_alloc fr).diffcnt = fr.diffcnt := by
  unfold frame_alloc; split <;> rfl

theorem frame_alloc_spec (fr : frame) (h1 : fr.diffcnt ≤ fr.diffs.length)
    (h2 : fr.diffs.length % 16 = 0) :
    fr.diffcnt < (frame_alloc fr).diffs.length ∧ (frame_alloc fr).diffs.length % 16 = 0 ∧
      (frame_alloc fr).diffs.take fr.diffcnt = fr.diffs.take fr.diffcnt := by
  unfold frame_alloc DIFF_REALLOC
  split
  · refine ⟨?_, ?_, ?_⟩
    · simp [realloc_length]
    · simp [realloc_length]; omega
    · exact realloc_take _ _ _ h1 (by omega)
  · refine ⟨?_, h2, rfl⟩
    omega

theorem diff_loop_succ (p q : List Nat) (n : Nat) :
    diff_loop p q (n + 1) = diff_body p q (diff_loop p q n) n := by
  simp [diff_loop, List.range_succ, List.foldl_append]

theorem differing_succ (p q : List Nat) (n : Nat) :
    differing p q (n + 1) =
      differing p q n ++ (if p.getD n 0 ≠ q.getD n 0 then [n] else []) := by
  unfold differing
  rw [List.range_succ, List.filter_append]
  by_cases h : p.getD n 0 = q.getD n 0
  · rw [if_neg (by simpa using h), List.filter_cons_of_neg (by simpa using h)]; rfl
  · rw [if_pos h, List.filter_cons_of_pos (by simpa using h)]; rfl

theorem differing_lt (p q : List Nat) (n : Nat) : ∀ i ∈ differing p q n, i < n := by
  intro i hi
  unfold differing at hi
  simp at hi
  exact hi.1

/-- The invariant of the diff loop while neither 16-bit field has wrapped. -/
theorem diff_loop_inv (p q : List Nat) : ∀ n : Nat,
    (differing p q n).length < 65536 → (∀ i ∈ differing p q n, i < 65536) →
    (diff_loop p q n).diffcnt = (differing p q n).length ∧
    (diff_loop p q n).diffs.take (differing p q n).length = expected_diffs p q n ∧
    (differing p q n).length ≤ (diff_loop p q n).diffs.length ∧
    (diff_loop p q n).diffs.length % 16 = 0 := by
  intro n
  induction n with
  | zero => intro _ _; simp [diff_loop, differing, expected_diffs]
  | succ n ih =>
    intro hc ha
    rw [diff_loop_succ]
    by_cases h : p.getD n 0 = q.getD n 0
    · have e0 : differing p q (n + 1) = differing p q n := by
        rw [differing_succ, if_neg (by simpa using h), List.append_nil]
      rw [e0] at hc ha
      have e2 : expected_diffs p q (n + 1) = expected_diffs p q n := by
        unfold expected_diffs; rw [e0]
      have e3 : diff_body p q (diff_loop p q n) n = diff_loop p q n := by
        unfold diff_body; rw [if_neg (by simpa using h)]
      rw [e0, e2, e3]
      exact ih hc ha
    · have e1 : differing p q (n + 1) = differing p q n ++ [n] := by
        rw [differing_succ, if_pos h]
      rw [e1] at hc ha
      have hn : n < 65536 := ha n (by simp)
      have hc1 : (differing p q n).length + 1 < 65536 := by
        simpa using hc
      obtain ⟨i1, i2, i3, i4⟩ := ih (by omega) (fun i hi => ha i (by simp [hi]))
      obtain ⟨a1, a2, a3⟩ := frame_alloc_spec (diff_loop p q n) (by omega) i4
      rw [i1] at a1 a3
      simp only [diff_body, ne_eq, h, not_false_eq_true, if_true, e1, expected_diffs,
        List.length_append, List.length_singleton, List.map_append, List.map_singleton,
        frame_alloc_diffcnt, i1, List.length_set]
      refine ⟨by omega, ?_, by omega, a2⟩
      rw [take_succ_set _ _ _ a1, a3, i2]
      simp [expected_diffs, Nat.mod_eq_of_lt hn]

theorem diff_body_same (p q : List Nat) (fr : frame) (n : Nat)
    (h : p.getD n 0 = q.getD n 0) : diff_body p q fr n = fr := by
  unfold diff_body; rw [if_neg (by simpa using h)]

/-- A scan over a prefix on which the buffers agree leaves the zeroed frame. -/
theorem diff_loop_agree (p q : List Nat) : ∀ n : Nat,
    (∀ i, i < n → p.getD i 0 = q.getD i 0) →
    diff_loop p q n = { diffcnt := 0, diffs := [] } := by
  intro n
  induction n with
  | zero => intro _; rfl
  | succ n ih =>
    intro h
    rw [diff_loop_succ, ih (fun i hi => h i (by omega)), diff_body_same _ _ _ _ (h n (by omega))]

theorem differing_agree (p q : List Nat) : ∀ n : Nat,
    (∀ i, i < n → p.getD i 0 = q.getD i 0) → differing p q n = [] := by
  intro n
  induction n with
  | zero => intro _; rfl
  | succ n ih =>
    intro h
    rw [differing_succ, ih (fun i hi => h i (by omega)),
      if_neg (by simpa using h n (by omega))]
    rfl

/-- The invariant of the diff loop that survives a wrap of `diffcnt`: the
printed entries have increasing addresses, all below the scan position. -/
theorem diff_loop_sorted (p q : List Nat) : ∀ n : Nat,
    (∀ i, i < n → p.getD i 0 ≠ q.getD i 0 → i < 65536) →
    (diff_loop p q n).diffcnt < 65536 ∧
    (diff_loop p q n).diffcnt ≤ (diff_loop p q n).diffs.length ∧
    (diff_loop p q n).diffs.length % 16 = 0 ∧
    List.Pairwise (fun a b : diff => a.addr < b.addr)
      ((diff_loop p q n).diffs.take (diff_loop p q n).diffcnt) ∧
    ∀ e ∈ (diff_loop p q n).diffs.take (diff_loop p q n).diffcnt, e.addr < n := by
  intro n
  induction n with
  | zero => intro _; simp [diff_loop]
  | succ n ih =>
    intro ha
    obtain ⟨i1, i2, i3, i4, i5⟩ := ih (fun i hi => ha i (by omega))
    rw [diff_loop_succ]
    by_cases h : p.getD n 0 = q.getD n 0
    · rw [diff_body_same _ _ _ _ h]
      exact ⟨i1, i2, i3, i4, fun e he => Nat.lt_succ_of_lt (i5 e he)⟩
    · have hn : n < 65536 := ha n (by omega) h
      obtain ⟨a1, a2, a3⟩ := frame_alloc_spec (diff_loop p q n) i2 i3
      simp only [diff_body, ne_eq, h, not_false_eq_true, if_true, frame_alloc_diffcnt,
        List.length_set]
      by_cases hw : (diff_loop p q n).diffcnt + 1 = 65536
      · rw [hw]
        simp [a2]
      · have hm : ((diff_loop p q n).diffcnt + 1) % 65536 = (diff_loop p q n).diffcnt + 1 :=
          Nat.mod_eq_of_lt (by omega)
        rw [hm, take_succ_set _ _ _ a1, a3]
        refine ⟨by omega, by omega, a2, ?_, ?_⟩
        · rw [List.pairwise_append]
          refine ⟨i4, List.pairwise_singleton _ _, ?_⟩
          intro a hx b hb
          simp only [List.mem_singleton] at hb
          subst hb
          simpa [Nat.mod_eq_of_lt hn] using i5 a hx
        · intro e he
          simp only [List.mem_append, List.mem_singleton] at he
          rcases he with he | he
          · exact Nat.lt_succ_of_lt (i5 e he)
          · subst he; simp [Nat.mod_eq_of_lt hn]

theorem print_frame_transistion_eq_take (fr : frame) (h : fr.diffcnt ≤ fr.diffs.length) :
    print_frame_transistion fr = fr.diffs.take fr.diffcnt :=
  map_getD_range _ _ _ h

/-! ## Lemmas on the application of a diff -/

theorem apply_diff_append (b : List Nat) (d1 d2 : List diff) :
    apply_diff b (d1 ++ d2) = apply_diff (apply_diff b d1) d2 := by
  simp [apply_diff, List.foldl_append]

theorem apply_diff_length (d : List diff) : ∀ b : List Nat,
    (apply_diff b d).length = b.length := by
  induction d with
  | nil => intro b; rfl
  | cons e d ih => intro b; simp only [apply_diff, List.foldl_cons] at ih ⊢; rw [ih]; simp

theorem apply_diff_set (d : List diff) : ∀ (x : List Nat) (a v : Nat),
    (apply_diff (x.set a v) d).set a v = (apply_diff x d).set a v := by
  induction d with
  | nil => intro x a v; simp [apply_diff, List.set_set]
  | cons e d ih =>
    intro x a v
    simp only [apply_diff, List.foldl_cons] at ih ⊢
    by_cases h : a = e.addr
    · subst h; rw [List.set_set]
    · rw [List.set_comm _ _ _ h, ih]

/-- Applying any list of entries twice is the same as applying it once. -/
theorem apply_diff_twice (d : List diff) : ∀ b : List Nat,
    apply_diff (apply_diff b d) d = apply_diff b d := by
  induction d using List.reverseRecOn with
  | nil => intro b; rfl
  | append_singleton d e ih =>
    intro b
    have h1 : ∀ x : List Nat, apply_diff x (d ++ [e]) = (apply_diff x d).set e.addr e.data := by
      intro x; rw [apply_diff_append]; rfl
    rw [h1 b, h1, apply_diff_set, ih]

/-- Applying the expected entries of the first `n` addresses turns the first
`n` bytes of `prev` into those of `next`. -/
theorem apply_expected (p q : List Nat) (hlen : p.length = q.length) : ∀ n : Nat,
    n ≤ p.length → ∀ j : Nat,
    (apply_diff p (expected_diffs p q n))[j]? = if j < n then q[j]? else p[j]? := by
  intro n
  induction n with
  | zero => intro _ j; simp [expected_diffs, differing, apply_diff]
  | succ n ih =>
    intro hn j
    have ih := ih (by omega)
    have hnp : n < p.length := by omega
    have hnq : n < q.length := by omega
    have hex : expected_diffs p q (n + 1) = expected_diffs p q n ++
        (if p.getD n 0 ≠ q.getD n 0 then [{ addr := n, data := q.getD n 0 }] else []) := by
      unfold expected_diffs
      rw [differing_succ, List.map_append]
      split <;> rfl
    rw [hex, apply_diff_append]
    by_cases h : p.getD n 0 = q.getD n 0
    · rw [if_neg (by simpa using h)]
      show (apply_diff p (expected_diffs p q n))[j]? = _
      rw [ih j]
      by_cases hj : j = n
      · subst hj
        have hpq : p[j]? = q[j]? := by
          rw [List.getD_eq_getElem _ _ hnp, List.getD_eq_getElem _ _ hnq] at h
          rw [List.getElem?_eq_getElem hnp, List.getElem?_eq_getElem hnq, h]
        simp [hpq]
      · by_cases hj2 : j < n
        · rw [if_pos hj2, if_pos (by omega)]
        · rw [if_neg hj2, if_neg (by omega)]
    · rw [if_pos h]
      show ((apply_diff p (expected_diffs p q n)).set n (q.getD n 0))[j]? = _
      rw [List.getElem?_set, apply_diff_length, ih j]
      by_cases hj : n = j
      · subst hj
        rw [if_pos rfl, if_pos hnp, if_pos (by omega), List.getD_eq_getElem _ _ hnq,
          List.getElem?_eq_getElem hnq]
      · rw [if_neg hj]
        by_cases hj2 : j < n
        · rw [if_pos hj2, if_pos (by omega)]
        · rw [if_neg hj2, if_neg (by omega)]

/-! ## Lemmas on `bytes`, `rotate_flip` and `arrange_mem` -/

theorem bytes_natCast (n : Nat) : bytes (n : Int) = (((n + 7) / 8 : Nat) : Int) := by
  unfold bytes
  simp only
  rw [Int.tdiv_eq_ediv (by omega) (by omega)]
  split <;> omega

theorem getD_set_of_lt {α : Type} (l : List α) (i j : Nat) (a d : α) (hj : j < l.length) :
    (l.set i a).getD j d = if i = j then a else l.getD j d := by
  rw [List.getD_eq_getElem?_getD, List.getD_eq_getElem?_getD, List.getElem?_set]
  by_cases h : i = j
  · subst h; simp [hj]
  · simp [h]

theorem rotate_flip_body_nat (w h : Nat) (data : List Nat) (x : Nat) (st : rf_state)
    (y : Nat) :
    rotate_flip_body (w : Int) (h : Int) data x st y =
      if y % 8 = 7 ∧ y + 1 < h then
        { out := st.out.set (x * ((h + 7) / 8) + y / 8)
            ((st.out_byte ||| (src_bit data ((w + 7) / 8) x y <<< (y % 8))) % 256),
          out_byte := 0,
          height_byte := y / 8 }
      else
        { out := st.out,
          out_byte := (st.out_byte ||| (src_bit data ((w + 7) / 8) x y <<< (y % 8))) % 256,
          height_byte := y / 8 } := by
  have e1 : ((y : Int) * (((w + 7) / 8 : Nat) : Int) + ((x / 8 : Nat) : Int)).toNat
      = y * ((w + 7) / 8) + x / 8 := by
    rw [← Nat.cast_mul, ← Nat.cast_add, Int.toNat_natCast]
  have e2 : ((x : Int) * (((h + 7) / 8 : Nat) : Int) + ((y / 8 : Nat) : Int)).toNat
      = x * ((h + 7) / 8) + y / 8 := by
    rw [← Nat.cast_mul, ← Nat.cast_add, Int.toNat_natCast]
  have e3 : x - x / 8 * 8 = x % 8 := by omega
  have e4 : y - y / 8 * 8 = y % 8 := by omega
  have e5 : (y % 8 = 7 ∧ (y : Int) < (h : Int) - 1) ↔ (y % 8 = 7 ∧ y + 1 < h) := by omega
  unfold rotate_flip_body src_bit
  simp only [bytes_natCast, e1, e2, e3, e4, e5]

theorem acc_byte_succ (data : List Nat) (wb x k c : Nat) :
    acc_byte data wb x k (c + 1)
      = (acc_byte data wb x k c ||| (src_bit data wb x (8 * k + c) <<< c)) % 256 := rfl

theorem foldl_range_succ {σ : Type} (f : σ → Nat → σ) (s : σ) (n : Nat) :
    (List.range (n + 1)).foldl f s = f ((List.range n).foldl f s) n := by
  rw [List.range_succ, List.foldl_append]; rfl

/-- The inner loop of `rotate_flip` after `m` rows of column `x`. -/
theorem rotate_flip_rows (w h : Nat) (data : List Nat) (x : Nat) (o : List Nat)
    (hb0 : Nat) : ∀ m : Nat, m ≤ h →
    ((List.range m).foldl (rotate_flip_body (w : Int) (h : Int) data x)
        { out := o, out_byte := 0, height_byte := hb0 }).out_byte
      = acc_byte data ((w + 7) / 8) x (min (m / 8) ((h - 1) / 8))
          (m - 8 * min (m / 8) ((h - 1) / 8)) ∧
    (0 < m → ((List.range m).foldl (rotate_flip_body (w : Int) (h : Int) data x)
        { out := o, out_byte := 0, height_byte := hb0 }).height_byte = (m - 1) / 8) ∧
    ((List.range m).foldl (rotate_flip_body (w : Int) (h : Int) data x)
        { out := o, out_byte := 0, height_byte := hb0 }).out.length = o.length ∧
    ∀ j, j < o.length →
      ((List.range m).foldl (rotate_flip_body (w : Int) (h : Int) data x)
        { out := o, out_byte := 0, height_byte := hb0 }).out.getD j 0
      = if x * ((h + 7) / 8) ≤ j ∧ j < x * ((h + 7) / 8) + min (m / 8) ((h - 1) / 8)
        then acc_byte data ((w + 7) / 8) x (j - x * ((h + 7) / 8)) 8 else o.getD j 0 := by
  intro m
  induction m with
  | zero =>
    intro _
    have hz : 0 - 8 * min (0 / 8) ((h - 1) / 8) = 0 := by omega
    refine ⟨by rw [hz]; rfl, fun h0 => absurd h0 (by decide), rfl, ?_⟩
    intro j _
    rw [if_neg (by omega)]
    rfl
  | succ m ih =>
    intro hm
    obtain ⟨i1, _, i3, i4⟩ := ih (by omega)
    have hk : min (m / 8) ((h - 1) / 8) = m / 8 := by omega
    rw [hk] at i1 i4
    rw [foldl_range_succ, rotate_flip_body_nat]
    generalize (List.range m).foldl (rotate_flip_body (w : Int) (h : Int) data x)
        { out := o, out_byte := 0, height_byte := hb0 } = st at i1 i3 i4 ⊢
    have hacc : (st.out_byte ||| (src_bit data ((w + 7) / 8) x m <<< (m % 8))) % 256
        = acc_byte data ((w + 7) / 8) x (m / 8) (m - 8 * (m / 8) + 1) := by
      rw [acc_byte_succ, i1]
      have e1 : 8 * (m / 8) + (m - 8 * (m / 8)) = m := by omega
      have e2 : m - 8 * (m / 8) = m % 8 := by omega
      rw [e1, e2]
    rw [hacc]
    by_cases hf : m % 8 = 7 ∧ m + 1 < h
    · rw [if_pos hf]
      have hk1 : min ((m + 1) / 8) ((h - 1) / 8) = m / 8 + 1 := by omega
      rw [hk1]
      have hz : m + 1 - 8 * (m / 8 + 1) = 0 := by omega
      have h8 : m - 8 * (m / 8) + 1 = 8 := by omega
      refine ⟨by rw [hz]; rfl, fun _ => by simp, by simp [i3], ?_⟩
      intro j hj
      simp only
      rw [getD_set_of_lt _ _ _ _ _ (by omega), h8]
      by_cases hj2 : x * ((h + 7) / 8) + m / 8 = j
      · rw [if_pos hj2, if_pos (by omega)]
        congr 1; omega
      · rw [if_neg hj2, i4 j hj]
        by_cases hj3 : x * ((h + 7) / 8) ≤ j ∧ j < x * ((h + 7) / 8) + m / 8
        · rw [if_pos hj3, if_pos (by omega)]
        · rw [if_neg hj3, if_neg (by omega)]
    · rw [if_neg hf]
      have hk1 : min ((m + 1) / 8) ((h - 1) / 8) = m / 8 := by omega
      rw [hk1]
      have hz : m + 1 - 8 * (m / 8) = m - 8 * (m / 8) + 1 := by omega
      refine ⟨by rw [hz], fun _ => by simp, i3, ?_⟩
      intro j hj
      exact i4 j hj

/-- One pass of the outer loop of `rotate_flip`: column `x` is written. -/
theorem rotate_flip_column_spec (w h : Nat) (hh : 0 < h) (data : List Nat) (x : Nat)
    (st : rf_state) :
    (rotate_flip_column (w : Int) (h : Int) data st x).out.length = st.out.length ∧
    ∀ j, j < st.out.length →
      (rotate_flip_column (w : Int) (h : Int) data st x).out.getD j 0
      = if x * ((h + 7) / 8) ≤ j ∧ j < x * ((h + 7) / 8) + (h + 7) / 8
        then acc_byte data ((w + 7) / 8) x (j - x * ((h + 7) / 8))
          (min 8 (h - 8 * (j - x * ((h + 7) / 8))))
        else st.out.getD j 0 := by
  obtain ⟨r1, r2, r3, r4⟩ := rotate_flip_rows w h data x st.out st.height_byte h (Nat.le_refl _)
  have r2 := r2 hh
  have hk : min (h / 8) ((h - 1) / 8) = (h - 1) / 8 := by omega
  rw [hk] at r1 r4
  have e2 : ((x : Int) * (((h + 7) / 8 : Nat) : Int) + (((h - 1) / 8 : Nat) : Int)).toNat
      = x * ((h + 7) / 8) + (h - 1) / 8 := by
    rw [← Nat.cast_mul, ← Nat.cast_add, Int.toNat_natCast]
  unfold rotate_flip_column
  simp only [Int.toNat_natCast, bytes_natCast]
  rw [r1, r2, e2]
  refine ⟨by rw [List.length_set, r3], ?_⟩
  intro j hj
  rw [getD_set_of_lt _ _ _ _ _ (by omega)]
  by_cases hj2 : x * ((h + 7) / 8) + (h - 1) / 8 = j
  · rw [if_pos hj2, if_pos (by omega)]
    have e3 : j - x * ((h + 7) / 8) = (h - 1) / 8 := by omega
    have e4 : min 8 (h - 8 * ((h - 1) / 8)) = h - 8 * ((h - 1) / 8) := by omega
    rw [e3, e4]
  · rw [if_neg hj2, r4 j hj]
    by_cases hj3 : x * ((h + 7) / 8) ≤ j ∧ j < x * ((h + 7) / 8) + (h - 1) / 8
    · rw [if_pos hj3, if_pos (by omega)]
      have e4 : min 8 (h - 8 * (j - x * ((h + 7) / 8))) = 8 := by omega
      rw [e4]
    · rw [if_neg hj3, if_neg (by omega)]

/-- The outer loop of `rotate_flip` after `n` columns. -/
theorem rotate_flip_columns (w h : Nat) (hh : 0 < h) (data o : List Nat) (s0 : rf_state)
    (hs0 : s0.out = o) : ∀ n : Nat,
    ((List.range n).foldl (rotate_flip_column (w : Int) (h : Int) data) s0).out.length
      = o.length ∧
    ∀ j, j < o.length →
      ((List.range n).foldl (rotate_flip_column (w : Int) (h : Int) data) s0).out.getD j 0
      = if j < n * ((h + 7) / 8)
        then acc_byte data ((w + 7) / 8) (j / ((h + 7) / 8)) (j % ((h + 7) / 8))
          (min 8 (h - 8 * (j % ((h + 7) / 8))))
        else o.getD j 0 := by
  intro n
  induction n with
  | zero =>
    refine ⟨by rw [← hs0]; rfl, ?_⟩
    intro j _
    rw [if_neg (by omega), ← hs0]
    rfl
  | succ n ih =>
    obtain ⟨i1, i2⟩ := ih
    rw [foldl_range_succ]
    generalize (List.range n).foldl (rotate_flip_column (w : Int) (h : Int) data) s0 = st
      at i1 i2 ⊢
    obtain ⟨c1, c2⟩ := rotate_flip_column_spec w h hh data n st
    refine ⟨by rw [c1, i1], ?_⟩
    intro j hj
    have hs : (n + 1) * ((h + 7) / 8) = n * ((h + 7) / 8) + (h + 7) / 8 := Nat.succ_mul _ _
    rw [c2 j (by omega), i2 j hj, hs]
    have hb : 0 < (h + 7) / 8 := by omega
    by_cases hj2 : n * ((h + 7) / 8) ≤ j ∧ j < n * ((h + 7) / 8) + (h + 7) / 8
    · rw [if_pos hj2, if_pos hj2.2]
      have hd : j / ((h + 7) / 8) = n :=
        Nat.div_eq_of_lt_le hj2.1 (by rw [hs]; exact hj2.2)
      have hm : j % ((h + 7) / 8) = j - n * ((h + 7) / 8) := by
        have := Nat.div_add_mod j ((h + 7) / 8)
        rw [hd, Nat.mul_comm] at this
        omega
      rw [hd, hm]
    · rw [if_neg hj2]
      by_cases hj3 : j < n * ((h + 7) / 8)
      · rw [if_pos hj3, if_pos (by omega)]
      · rw [if_neg hj3, if_neg (by omega)]

/-- The intermediate buffer after `rotate_flip`, for positive dimensions. -/
theorem rotate_flip_spec (w h : Nat) (hh : 0 < h) (data o : List Nat) :
    (rotate_flip (w : Int) (h : Int) data o).length = o.length ∧
    ∀ x k, x < w → k < (h + 7) / 8 → x * ((h + 7) / 8) + k < o.length →
      (rotate_flip (w : Int) (h : Int) data o).getD (x * ((h + 7) / 8) + k) 0
        = acc_byte data ((w + 7) / 8) x k (min 8 (h - 8 * k)) := by
  obtain ⟨c1, c2⟩ := rotate_flip_columns w h hh data o
    { out := o, out_byte := 0, height_byte := 0 } rfl w
  unfold rotate_flip
  simp only [Int.toNat_natCast]
  refine ⟨c1, ?_⟩
  intro x k hx hk hj
  rw [c2 _ hj]
  have h1 : x * ((h + 7) / 8) + k < w * ((h + 7) / 8) := by
    have : (x + 1) * ((h + 7) / 8) ≤ w * ((h + 7) / 8) := Nat.mul_le_mul_right _ hx
    rw [Nat.succ_mul] at this
    omega
  rw [if_pos h1]
  have hd : (x * ((h + 7) / 8) + k) / ((h + 7) / 8) = x :=
    Nat.div_eq_of_lt_le (by omega) (by rw [Nat.succ_mul]; omega)
  have hm : (x * ((h + 7) / 8) + k) % ((h + 7) / 8) = k := by
    rw [Nat.mul_comm, Nat.mul_add_mod]
    exact Nat.mod_eq_of_lt hk
  rw [hd, hm]

theorem succ_div_mod (n b : Nat) (hb : 0 < b) :
    (n % b + 1 = b → (n + 1) / b = n / b + 1 ∧ (n + 1) % b = 0) ∧
    (n % b + 1 ≠ b → (n + 1) / b = n / b ∧ (n + 1) % b = n % b + 1) := by
  have h1 := Nat.div_add_mod n b
  have h2 := Nat.mod_lt n hb
  constructor
  · intro h
    rw [Nat.div_mod_unique hb, Nat.mul_succ]
    omega
  · intro h
    rw [Nat.div_mod_unique hb]
    omega

theorem range'_succ_right (s n : Nat) : List.range' s (n + 1) = List.range' s n ++ [s + n] := by
  rw [List.range'_concat, Nat.one_mul]

theorem arrange_mem_body_nat (hb : Nat) (inp : List Nat) (row : Nat) (st : am_state)
    (idx : Nat) :
    arrange_mem_body (hb : Int) inp row st idx =
      if st.rotate_row = row then
        { out := st.out.set st.out_index (inp.getD idx 0),
          rotate_row := if st.rotate_row + 1 = hb then 0 else st.rotate_row + 1,
          out_index := st.out_index + 1,
          writes := st.writes ++ [st.out_index] }
      else
        { out := st.out,
          rotate_row := if st.rotate_row + 1 = hb then 0 else st.rotate_row + 1,
          out_index := st.out_index,
          writes := st.writes } := by
  unfold arrange_mem_body
  simp only [Nat.cast_inj]
  split <;> split <;> rfl

/-- The inner loop of `arrange_mem` for band `r`, after `idx` input positions. -/
theorem arrange_mem_row_inv (hb w : Nat) (hhb : 0 < hb) (inp o : List Nat) (r : Nat)
    (hr : r < hb) (ws : List Nat) (s0 : am_state) (h0 : s0.out = o)
    (h1 : s0.rotate_row = 0) (h2 : s0.out_index = r * w) (h3 : s0.writes = ws) :
    ∀ idx : Nat,
    ((List.range idx).foldl (arrange_mem_body (hb : Int) inp r) s0).rotate_row = idx % hb ∧
    ((List.range idx).foldl (arrange_mem_body (hb : Int) inp r) s0).out_index
      = r * w + (idx / hb + if r < idx % hb then 1 else 0) ∧
    ((List.range idx).foldl (arrange_mem_body (hb : Int) inp r) s0).writes
      = ws ++ List.range' (r * w) (idx / hb + if r < idx % hb then 1 else 0) ∧
    ((List.range idx).foldl (arrange_mem_body (hb : Int) inp r) s0).out.length = o.length ∧
    ∀ j, j < o.length →
      ((List.range idx).foldl (arrange_mem_body (hb : Int) inp r) s0).out.getD j 0
      = if r * w ≤ j ∧ j < r * w + (idx / hb + if r < idx % hb then 1 else 0)
        then inp.getD ((j - r * w) * hb + r) 0 else o.getD j 0 := by
  intro idx
  induction idx with
  | zero =>
    simp only [List.range_zero, List.foldl_nil, Nat.zero_div, Nat.zero_mod, Nat.not_lt_zero,
      if_false, Nat.add_zero, List.range'_zero, List.append_nil]
    refine ⟨h1, h2, h3, by rw [h0], ?_⟩
    intro j _
    rw [if_neg (by omega), h0]
  | succ idx ih =>
    obtain ⟨i1, i2, i3, i4, i5⟩ := ih
    rw [foldl_range_succ, arrange_mem_body_nat]
    generalize (List.range idx).foldl (arrange_mem_body (hb : Int) inp r) s0 = st
      at i1 i2 i3 i4 i5 ⊢
    obtain ⟨d1, d2⟩ := succ_div_mod idx hb hhb
    have hdm := Nat.div_add_mod idx hb
    have hlt := Nat.mod_lt idx hhb
    rw [i1]
    by_cases ht : idx % hb = r
    · rw [if_pos ht]
      have hc : (idx / hb + if r < idx % hb then 1 else 0) = idx / hb := by
        rw [if_neg (by omega)]; rfl
      rw [hc] at i2 i3 i5
      have hc1 : ((idx + 1) / hb + if r < (idx + 1) % hb then 1 else 0) = idx / hb + 1 := by
        by_cases he : idx % hb + 1 = hb
        · rw [(d1 he).1, (d1 he).2, if_neg (by omega)]
        · rw [(d2 he).1, (d2 he).2, if_pos (by omega)]
      have hrr : (if idx % hb + 1 = hb then 0 else idx % hb + 1) = (idx + 1) % hb := by
        by_cases he : idx % hb + 1 = hb
        · rw [if_pos he, (d1 he).2]
        · rw [if_neg he, (d2 he).2]
      rw [hc1]
      refine ⟨hrr, by simp only [i2]; omega, ?_, by simp [i4], ?_⟩
      · simp only [i3, i2, range'_succ_right, List.append_assoc]
      · intro j hj
        simp only
        rw [getD_set_of_lt _ _ _ _ _ (by omega), i2]
        have e2 : idx / hb * hb + r = idx := by
          rw [Nat.mul_comm]; omega
        clear d1 d2 hc hc1 hrr hdm
        generalize idx / hb = q at *
        by_cases hj2 : r * w + q = j
        · rw [if_pos hj2, if_pos (by omega)]
          have e1 : j - r * w = q := by omega
          rw [e1, e2]
        · rw [if_neg hj2, i5 j hj]
          by_cases hj3 : r * w ≤ j ∧ j < r * w + q
          · rw [if_pos hj3, if_pos (by omega)]
          · rw [if_neg hj3, if_neg (by omega)]
    · rw [if_neg ht]
      have hc1 : ((idx + 1) / hb + if r < (idx + 1) % hb then 1 else 0)
          = (idx / hb + if r < idx % hb then 1 else 0) := by
        by_cases he : idx % hb + 1 = hb
        · rw [(d1 he).1, (d1 he).2, if_neg (by omega), if_pos (by omega)]
        · rw [(d2 he).1, (d2 he).2]
          by_cases hlt2 : r < idx % hb
          · rw [if_pos hlt2, if_pos (by omega)]
          · rw [if_neg hlt2, if_neg (by omega)]
      have hrr : (if idx % hb + 1 = hb then 0 else idx % hb + 1) = (idx + 1) % hb := by
        by_cases he : idx % hb + 1 = hb
        · rw [if_pos he, (d1 he).2]
        · rw [if_neg he, (d2 he).2]
      rw [hc1]
      exact ⟨hrr, i2, i3, i4, i5⟩

/-- The outer loop of `arrange_mem` after `r` bands, for a buffer of
`hb * w` bytes. -/
theorem arrange_mem_rows (hb w : Nat) (hhb : 0 < hb) (inp o : List Nat) : ∀ r : Nat,
    r ≤ hb →
    ((List.range r).foldl (arrange_mem_row (hb : Int) inp (hb * w))
        { out := o, rotate_row := 0, out_index := 0, writes := [] }).rotate_row = 0 ∧
    ((List.range r).foldl (arrange_mem_row (hb : Int) inp (hb * w))
        { out := o, rotate_row := 0, out_index := 0, writes := [] }).out_index = r * w ∧
    ((List.range r).foldl (arrange_mem_row (hb : Int) inp (hb * w))
        { out := o, rotate_row := 0, out_index := 0, writes := [] }).writes
      = List.range' 0 (r * w) ∧
    ((List.range r).foldl (arrange_mem_row (hb : Int) inp (hb * w))
        { out := o, rotate_row := 0, out_index := 0, writes := [] }).out.length = o.length ∧
    (∀ p x, p < r → x < w → p * w + x < o.length →
      ((List.range r).foldl (arrange_mem_row (hb : Int) inp (hb * w))
        { out := o, rotate_row := 0, out_index := 0, writes := [] }).out.getD (p * w + x) 0
      = inp.getD (x * hb + p) 0) ∧
    (∀ j, r * w ≤ j → j < o.length →
      ((List.range r).foldl (arrange_mem_row (hb : Int) inp (hb * w))
        { out := o, rotate_row := 0, out_index := 0, writes := [] }).out.getD j 0
      = o.getD j 0) := by
  intro r
  induction r with
  | zero =>
    intro _
    rw [List.range_zero, List.foldl_nil, Nat.zero_mul, List.range'_zero]
    exact ⟨rfl, rfl, rfl, rfl, fun p x hp => absurd hp (Nat.not_lt_zero p), fun _ _ _ => rfl⟩
  | succ r ih =>
    intro hr
    obtain ⟨i1, i2, i3, i4, i5, i6⟩ := ih (by omega)
    rw [foldl_range_succ]
    generalize (List.range r).foldl (arrange_mem_row (hb : Int) inp (hb * w))
        { out := o, rotate_row := 0, out_index := 0, writes := [] } = st
      at i1 i2 i3 i4 i5 i6 ⊢
    obtain ⟨a1, a2, a3, a4, a5⟩ := arrange_mem_row_inv hb w hhb inp st.out r (by omega)
      st.writes st rfl i1 i2 rfl (hb * w)
    have hd : hb * w / hb = w := Nat.mul_div_cancel_left w hhb
    have hm : hb * w % hb = 0 := Nat.mul_mod_right hb w
    have hc : (hb * w / hb + if r < hb * w % hb then 1 else 0) = w := by
      rw [hd, hm, if_neg (Nat.not_lt_zero r), Nat.add_zero]
    rw [hc] at a2 a3 a5
    rw [hm] at a1
    have hs : (r + 1) * w = r * w + w := Nat.succ_mul r w
    unfold arrange_mem_row
    refine ⟨a1, by rw [a2, hs], ?_, by rw [a4, i4], ?_, ?_⟩
    · rw [a3, i3, hs]
      have := List.range'_append 0 (r * w) w 1
      rw [Nat.one_mul, Nat.zero_add] at this
      rw [this, Nat.add_comm]
    · intro p x hp hx hj
      rw [a5 _ (by omega)]
      by_cases hpr : p = r
      · subst hpr
        rw [if_pos (by omega)]
        have e1 : p * w + x - p * w = x := by omega
        rw [e1]
      · have hle : (p + 1) * w ≤ r * w := Nat.mul_le_mul_right w (by omega)
        rw [Nat.succ_mul] at hle
        rw [if_neg (by omega)]
        exact i5 p x (by omega) hx hj
    · intro j hj1 hj2
      rw [a5 _ (by omega), if_neg (by omega)]
      exact i6 j (by omega) hj2

/-- The result of `arrange_mem` on a buffer of `ceil(h/8) * w` bytes. -/
theorem arrange_mem_run_spec (w h : Nat) (hh : 0 < h) (inp o : List Nat) :
    (arrange_mem_run (h : Int) inp o ((h + 7) / 8 * w)).out_index = (h + 7) / 8 * w ∧
    (arrange_mem_run (h : Int) inp o ((h + 7) / 8 * w)).writes
      = List.range ((h + 7) / 8 * w) ∧
    (arrange_mem_run (h : Int) inp o ((h + 7) / 8 * w)).out.length = o.length ∧
    ∀ p x, p < (h + 7) / 8 → x < w → p * w + x < o.length →
      (arrange_mem_run (h : Int) inp o ((h + 7) / 8 * w)).out.getD (p * w + x) 0
        = inp.getD (x * ((h + 7) / 8) + p) 0 := by
  obtain ⟨_, a2, a3, a4, a5, _⟩ := arrange_mem_rows ((h + 7) / 8) w (by omega) inp o
    ((h + 7) / 8) (Nat.le_refl _)
  unfold arrange_mem_run
  simp only [bytes_natCast, Int.toNat_natCast]
  exact ⟨a2, by rw [a3, List.range_eq_range'], a4, a5⟩

theorem src_bit_testBit (data : List Nat) (wb x y j : Nat) :
    (src_bit data wb x y).testBit j
      = (decide (j = 0) && (data.getD (y * wb + x / 8) 0).testBit (x % 8)) := by
  unfold src_bit
  rw [Nat.and_one_is_mod]
  have h2 : (2 : Nat) = 2 ^ 1 := rfl
  rw [h2, Nat.testBit_mod_two_pow, Nat.testBit_shiftRight]
  by_cases hj : j = 0
  · subst hj; simp
  · have : ¬ j < 1 := by omega
    simp [hj, this]

/-- Bit `i` of the byte accumulated from `c <= 8` rows of band `k`. -/
theorem acc_byte_testBit (data : List Nat) (wb x k : Nat) : ∀ c : Nat, c ≤ 8 → ∀ i : Nat,
    (acc_byte data wb x k c).testBit i
      = (decide (i < c) && (data.getD ((8 * k + i) * wb + x / 8) 0).testBit (x % 8)) := by
  intro c
  induction c with
  | zero => intro _ i; simp [acc_byte]
  | succ c ih =>
    intro hc i
    have h256 : (256 : Nat) = 2 ^ 8 := rfl
    rw [acc_byte_succ, h256, Nat.testBit_mod_two_pow, Nat.testBit_lor, ih (by omega) i,
      Nat.testBit_shiftLeft, src_bit_testBit]
    by_cases h1 : i < c
    · have h2 : i < 8 := by omega
      have h3 : i < c + 1 := by omega
      have h4 : ¬ i ≥ c := by omega
      simp [h1, h2, h3, h4]
    · by_cases h2 : i = c
      · subst h2
        have h3 : i < 8 := by omega
        simp [h3]
      · have h3 : ¬ i < c + 1 := by omega
        have h4 : ¬ i - c = 0 := by omega
        simp [h1, h3, h4]

theorem index_lt_mul (a b x p : Nat) (hx : x < a) (hp : p < b) : x * b + p < a * b := by
  have : (x + 1) * b ≤ a * b := Nat.mul_le_mul_right b hx
  rw [Nat.succ_mul] at this
  omega

theorem buflen_natCast (w h : Nat) : buflen (w : Int) (h : Int) = (h + 7) / 8 * w := by
  unfold buflen
  rw [bytes_natCast, ← Nat.cast_mul, Int.toNat_natCast]

/-- The converted buffer, for positive height: its length, and the byte at
page `p`, column `x`. -/
theorem convert_spec (w h : Nat) (hh : 0 < h) (data : List Nat) :
    (convert (w : Int) (h : Int) data).length = (h + 7) / 8 * w ∧
    ∀ p x, p < (h + 7) / 8 → x < w →
      (convert (w : Int) (h : Int) data).getD (p * w + x) 0
        = acc_byte data ((w + 7) / 8) x p (min 8 (h - 8 * p)) := by
  obtain ⟨r1, r2⟩ := rotate_flip_spec w h hh data (List.replicate ((h + 7) / 8 * w) 0)
  obtain ⟨_, _, a3, a4⟩ := arrange_mem_run_spec w h hh
    (rotate_flip (w : Int) (h : Int) data (List.replicate ((h + 7) / 8 * w) 0))
    (List.replicate ((h + 7) / 8 * w) 0)
  unfold convert arrange_mem
  simp only [buflen_natCast]
  refine ⟨by rw [a3, List.length_replicate], ?_⟩
  intro p x hp hx
  have hlt1 : p * w + x < (h + 7) / 8 * w := index_lt_mul _ _ _ _ hp hx
  have hlt2 : x * ((h + 7) / 8) + p < (h + 7) / 8 * w := by
    rw [Nat.mul_comm ((h + 7) / 8) w]; exact index_lt_mul _ _ _ _ hx hp
  rw [a4 p x hp hx (by rw [List.length_replicate]; exact hlt1),
    r2 x p hx hp (by rw [List.length_replicate]; exact hlt2)]

theorem process_keyframe_eq (w h : Nat) (hh : 0 < h) (data : List Nat) :
    process_keyframe (w : Int) (h : Int) data = convert (w : Int) (h : Int) data := by
  have hl := (convert_spec w h hh data).1
  unfold process_keyframe print_keyframe
  rw [map_getD_range _ _ _ (by rw [buflen_natCast, hl]), buflen_natCast,
    List.take_of_length_le (by rw [hl])]

/-- Bit `i` of the byte at page `p`, column `x` of the converted buffer. -/
theorem convert_testBit (w h : Nat) (hh : 0 < h) (data : List Nat) (p x i : Nat)
    (hp : p < (h + 7) / 8) (hx : x < w) :
    ((process_keyframe (w : Int) (h : Int) data).getD (p * w + x) 0).testBit i
      = (decide (i < 8 ∧ 8 * p + i < h)
          && (data.getD ((8 * p + i) * ((w + 7) / 8) + x / 8) 0).testBit (x % 8)) := by
  rw [process_keyframe_eq w h hh, (convert_spec w h hh data).2 p x hp hx,
    acc_byte_testBit _ _ _ _ _ (by omega)]
  congr 1
  simp only [decide_eq_decide]
  omega

/-! ## The frame differencer: claims C3 to C7 -/

theorem print_diff_loop_eq_expected (prev next : List Nat)
    (hcnt : (differing prev next prev.length).length < 65536)
    (haddr : ∀ i ∈ differing prev next prev.length, i < 65536) :
    print_frame_transistion (diff_loop prev next prev.length)
        = expected_diffs prev next prev.length := by
  obtain ⟨i1, i2, i3, _⟩ := diff_loop_inv prev next prev.length hcnt haddr
  rw [print_frame_transistion_eq_take _ (by omega), i1, i2]

/-- C3 (as amended): for equal-length buffers in which every differing address
is below 65536 and fewer than 65536 addresses differ, the diff list built by the
scan of `process_frame_transistion` is exactly the list of entries `(i, next[i])`
over the differing addresses `i`, in scan order, and `diffcnt` is their number. -/
theorem diff_list_exact (prev next : List Nat) (hlen : prev.length = next.length)
    (hcnt : (differing prev next prev.length).length < 65536)
    (haddr : ∀ i ∈ differing prev next prev.length, i < 65536) :
    print_frame_transistion (diff_loop prev next prev.length)
        = expected_diffs prev next prev.length ∧
      (diff_loop prev next prev.length).diffcnt
        = (differing prev next prev.length).length := by
  have _ := hlen
  exact ⟨print_diff_loop_eq_expected prev next hcnt haddr,
    (diff_loop_inv prev next prev.length hcnt haddr).1⟩

/-- Witness of C3 (as amended): the buffers `[1, 2, 3]` and `[1, 7, 3]`. -/
theorem diff_list_exact_witness :
    print_frame_transistion (diff_loop [1, 2, 3] [1, 7, 3] 3) = [{ addr := 1, data := 7 }] ∧
      (diff_loop [1, 2, 3] [1, 7, 3] 3).diffcnt = 1 :=
  diff_list_exact [1, 2, 3] [1, 7, 3] (by decide) (by decide) (by decide)

/-- The scan over two buffers that agree below address 65536 and differ there. -/
theorem diff_loop_wrapped_addr (P Q : List Nat)
    (hagree : ∀ i, i < 65536 → P.getD i 0 = Q.getD i 0)
    (hP : P.getD 65536 0 = 0) (hQ : Q.getD 65536 0 = 1) :
    print_frame_transistion (diff_loop P Q 65537) = [{ addr := 0, data := 1 }] ∧
      expected_diffs P Q 65537 = [{ addr := 65536, data := 1 }] := by
  constructor
  · rw [diff_loop_succ, diff_loop_agree _ _ 65536 hagree]
    unfold diff_body
    rw [hP, hQ]
    decide
  · unfold expected_diffs
    rw [differing_succ, differing_agree _ _ 65536 hagree, hP, hQ]
    simp only [ne_eq, zero_ne_one, not_false_eq_true, if_true, List.nil_append,
      List.map_cons, List.map_nil, hQ]

theorem getD_replicate_zero (n i : Nat) : (List.replicate n 0).getD i 0 = 0 := by
  rw [List.getD_eq_getElem?_getD, List.getElem?_replicate]
  split <;> rfl

/-- C3 fails as stated: two buffers of 65537 bytes that differ at address 65536
only give the one-entry diff list `[(0, 1)]`, not `[(65536, 1)]`. -/
theorem diff_list_exact_counterexample :
    (List.replicate 65537 0).length = (List.replicate 65536 0 ++ [1]).length ∧
    print_frame_transistion
        (diff_loop (List.replicate 65537 0) (List.replicate 65536 0 ++ [1]) 65537)
      = [{ addr := 0, data := 1 }] ∧
    expected_diffs (List.replicate 65537 0) (List.replicate 65536 0 ++ [1]) 65537
      = [{ addr := 65536, data := 1 }] ∧
    print_frame_transistion
        (diff_loop (List.replicate 65537 0) (List.replicate 65536 0 ++ [1]) 65537)
      ≠ expected_diffs (List.replicate 65537 0) (List.replicate 65536 0 ++ [1]) 65537 := by
  have hq : ∀ i, i < 65536 → (List.replicate 65536 0 ++ [1]).getD i 0 = 0 := by
    intro i hi
    rw [List.getD_append _ _ _ _ (by rw [List.length_replicate]; exact hi)]
    exact getD_replicate_zero _ _
  have hq1 : (List.replicate 65536 0 ++ [1]).getD 65536 0 = 1 := by
    rw [List.getD_append_right _ _ _ _ (by rw [List.length_replicate])]
    rw [List.length_replicate, Nat.sub_self]
    rfl
  obtain ⟨h1, h2⟩ := diff_loop_wrapped_addr (List.replicate 65537 0)
    (List.replicate 65536 0 ++ [1])
    (fun i hi => by rw [getD_replicate_zero, hq i hi]) (getD_replicate_zero _ _) hq1
  refine ⟨?_, h1, h2, ?_⟩
  · rw [List.length_append, List.length_replicate, List.length_replicate]; rfl
  · rw [h1, h2]
    decide

/-- C4 (as amended): for equal-length buffers in which every differing address
is below 65536 (so for all buffers of at most 65536 bytes), the `addr` fields of
the diff list built by the scan of `process_frame_transistion` are strictly
increasing. -/
theorem diff_addr_increasing (prev next : List Nat) (hlen : prev.length = next.length)
    (haddr : ∀ i, i < prev.length → prev.getD i 0 ≠ next.getD i 0 → i < 65536) :
    List.Pairwise (fun a b : diff => a.addr < b.addr)
      (print_frame_transistion (diff_loop prev next prev.length)) := by
  have _ := hlen
  obtain ⟨_, i2, _, i4, _⟩ := diff_loop_sorted prev next prev.length haddr
  rw [print_frame_transistion_eq_take _ i2]
  exact i4

/-- Witness of C4 (as amended): the buffers `[1, 2, 3]` and `[4, 2, 6]`. -/
theorem diff_addr_increasing_witness :
    [1, 2, 3].length = [4, 2, 6].length ∧
    List.Pairwise (fun a b : diff => a.addr < b.addr)
      (print_frame_transistion (diff_loop [1, 2, 3] [4, 2, 6] [1, 2, 3].length)) :=
  ⟨by decide, diff_addr_increasing [1, 2, 3] [4, 2, 6] (by decide)
    (fun i hi _ => Nat.lt_trans hi (by decide))⟩

/-- The scan over two buffers that agree below address 65535 and differ at the
addresses 65535 and 65536. -/
theorem diff_loop_wrapped_order (P Q : List Nat)
    (hagree : ∀ i, i < 65535 → P.getD i 0 = Q.getD i 0)
    (hP : P.getD 65535 0 = 0) (hQ : Q.getD 65535 0 = 1)
    (hP1 : P.getD 65536 0 = 0) (hQ1 : Q.getD 65536 0 = 1) :
    print_frame_transistion (diff_loop P Q 65537)
      = [{ addr := 65535, data := 1 }, { addr := 0, data := 1 }] := by
  rw [diff_loop_succ, diff_loop_succ, diff_loop_agree _ _ 65535 hagree]
  unfold diff_body
  rw [hP, hQ, hP1, hQ1]
  decide

/-- C4 fails as stated: two buffers of 65537 bytes that differ at the addresses
65535 and 65536 give the diff list `[(65535, 1), (0, 1)]`, whose stored addresses
are not increasing. -/
theorem diff_addr_increasing_counterexample :
    (List.replicate 65537 0).length = (List.replicate 65535 0 ++ [1, 1]).length ∧
    print_frame_transistion
        (diff_loop (List.replicate 65537 0) (List.replicate 65535 0 ++ [1, 1]) 65537)
      = [{ addr := 65535, data := 1 }, { addr := 0, data := 1 }] ∧
    ¬ List.Pairwise (fun a b : diff => a.addr < b.addr)
      (print_frame_transistion
        (diff_loop (List.replicate 65537 0) (List.replicate 65535 0 ++ [1, 1]) 65537)) := by
  have hq : ∀ i, i < 65535 → (List.replicate 65535 0 ++ [1, 1]).getD i 0 = 0 := by
    intro i hi
    rw [List.getD_append _ _ _ _ (by rw [List.length_replicate]; exact hi)]
    exact getD_replicate_zero _ _
  have hq1 : (List.replicate 65535 0 ++ [1, 1]).getD 65535 0 = 1 := by
    rw [List.getD_append_right _ _ _ _ (by rw [List.length_replicate])]
    rw [List.length_replicate, Nat.sub_self]
    rfl
  have hq2 : (List.replicate 65535 0 ++ [1, 1]).getD 65536 0 = 1 := by
    rw [List.getD_append_right _ _ _ _ (by rw [List.length_replicate]; decide)]
    rw [List.length_replicate]
    rfl
  have h1 := diff_loop_wrapped_order (List.replicate 65537 0)
    (List.replicate 65535 0 ++ [1, 1])
    (fun i hi => by rw [getD_replicate_zero, hq i hi]) (getD_replicate_zero _ _) hq1
    (getD_replicate_zero _ _) hq2
  refine ⟨?_, h1, ?_⟩
  · rw [List.length_append, List.length_replicate, List.length_replicate]; rfl
  · rw [h1]
    decide

/-- C5 (as amended): for equal-length buffers in which every differing address
is below 65536 and fewer than 65536 addresses differ, applying the entries of
the diff of `(prev, next)` in order onto a copy of `prev` yields `next`. -/
theorem diff_round_trip (prev next : List Nat) (hlen : prev.length = next.length)
    (hcnt : (differing prev next prev.length).length < 65536)
    (haddr : ∀ i ∈ differing prev next prev.length, i < 65536) :
    apply_diff prev (print_frame_transistion (diff_loop prev next prev.length)) = next := by
  rw [(print_diff_loop_eq_expected prev next hcnt haddr)]
  apply List.ext_getElem?
  intro j
  rw [apply_expected prev next hlen prev.length (Nat.le_refl _) j]
  by_cases hj : j < prev.length
  · rw [if_pos hj]
  · rw [if_neg hj, List.getElem?_eq_none (by omega), List.getElem?_eq_none (by omega)]

/-- Witness of C5 (as amended): the buffers `[1, 2, 3]` and `[4, 2, 6]`. -/
theorem diff_round_trip_witness :
    [1, 2, 3].length = [4, 2, 6].length ∧
    apply_diff [1, 2, 3]
      (print_frame_transistion (diff_loop [1, 2, 3] [4, 2, 6] [1, 2, 3].length)) = [4, 2, 6] :=
  ⟨by decide, diff_round_trip [1, 2, 3] [4, 2, 6] (by decide) (by decide) (by decide)⟩

/-- C5 fails as stated: for two buffers of 65537 bytes that differ at address
65536 only, applying the diff onto `prev` changes byte 0 and does not give `next`. -/
theorem diff_round_trip_counterexample :
    (List.replicate 65537 0).length = (List.replicate 65536 0 ++ [1]).length ∧
    apply_diff (List.replicate 65537 0)
        (print_frame_transistion
          (diff_loop (List.replicate 65537 0) (List.replicate 65536 0 ++ [1]) 65537))
      ≠ List.replicate 65536 0 ++ [1] := by
  have hq : ∀ i, i < 65536 → (List.replicate 65536 0 ++ [1]).getD i 0 = 0 := by
    intro i hi
    rw [List.getD_append _ _ _ _ (by rw [List.length_replicate]; exact hi)]
    exact getD_replicate_zero _ _
  have hq1 : (List.replicate 65536 0 ++ [1]).getD 65536 0 = 1 := by
    rw [List.getD_append_right _ _ _ _ (by rw [List.length_replicate])]
    rw [List.length_replicate, Nat.sub_self]
    rfl
  obtain ⟨h1, _⟩ := diff_loop_wrapped_addr (List.replicate 65537 0)
    (List.replicate 65536 0 ++ [1])
    (fun i hi => by rw [getD_replicate_zero, hq i hi]) (getD_replicate_zero _ _) hq1
  refine ⟨?_, ?_⟩
  · rw [List.length_append, List.length_replicate, List.length_replicate]; rfl
  · rw [h1]
    intro h
    have h0 := congrArg (fun l : List Nat => l.getD 0 0) h
    simp only [apply_diff, List.foldl_cons, List.foldl_nil] at h0
    rw [hq 0 (by decide), List.getD_eq_getElem?_getD, List.getElem?_set, if_pos rfl,
      if_pos (by rw [List.length_replicate]; decide)] at h0
    exact absurd h0 (by decide)

/-- C6: the diff of a buffer against itself is empty: the scan appends no entry
and leaves `diffcnt` at 0. -/
theorem diff_self_empty (X : List Nat) :
    diff_loop X X X.length = { diffcnt := 0, diffs := [] } ∧
      print_frame_transistion (diff_loop X X X.length) = [] := by
  have h := diff_loop_agree X X X.length (fun _ _ => rfl)
  rw [h]
  exact ⟨rfl, rfl⟩

/-- C7: applying a diff produced by the differencer, with all its addresses
inside the buffer `b`, twice gives the same buffer as applying it once. -/
theorem diff_apply_idempotent (prev next b : List Nat) (hlen : prev.length = next.length)
    (hin : ∀ e ∈ print_frame_transistion (diff_loop prev next prev.length),
      e.addr < b.length) :
    apply_diff
        (apply_diff b (print_frame_transistion (diff_loop prev next prev.length)))
        (print_frame_transistion (diff_loop prev next prev.length))
      = apply_diff b (print_frame_transistion (diff_loop prev next prev.length)) := by
  have _ := hlen
  have _ := hin
  exact apply_diff_twice _ b

/-- Witness of C7: the diff of `[1, 2, 3]` and `[4, 2, 6]`, applied to `[9, 9, 9]`. -/
theorem diff_apply_idempotent_witness :
    [1, 2, 3].length = [4, 2, 6].length ∧
    apply_diff
        (apply_diff [9, 9, 9]
          (print_frame_transistion (diff_loop [1, 2, 3] [4, 2, 6] [1, 2, 3].length)))
        (print_frame_transistion (diff_loop [1, 2, 3] [4, 2, 6] [1, 2, 3].length))
      = [4, 9, 6] :=
  ⟨by decide, (diff_apply_idempotent [1, 2, 3] [4, 2, 6] [9, 9, 9] (by decide)
    (by decide)).trans (by decide)⟩


/-! ## The layout converter: claims C1, C2, C8 and C9 -/

/-- C1: for positive `W` and `H` and a source bitmap of `H` rows of `ceil(W/8)`
bytes, bit `i` of the byte at page `p`, column `x` of the converted buffer is bit
`x mod 8` of source byte `(8p+i)*ceil(W/8) + x/8` when `8p+i < H`, and `0`
otherwise. -/
theorem convert_pixel_layout (w h : Nat) (hw : 0 < w) (hh : 0 < h) (data : List Nat)
    (hdata : data.length = h * ((w + 7) / 8))
    (p x i : Nat) (hp : p < (h + 7) / 8) (hx : x < w) (hi : i < 8) :
    ((process_keyframe (w : Int) (h : Int) data).getD (p * w + x) 0).testBit i
      = if 8 * p + i < h
        then (data.getD ((8 * p + i) * ((w + 7) / 8) + x / 8) 0).testBit (x % 8)
        else false := by
  have _ := hw
  have _ := hdata
  rw [convert_testBit w h hh data p x i hp hx]
  by_cases hc : 8 * p + i < h
  · rw [if_pos hc]
    have : (i < 8 ∧ 8 * p + i < h) := ⟨hi, hc⟩
    simp [this]
  · rw [if_neg hc]
    have : ¬ (i < 8 ∧ 8 * p + i < h) := fun h2 => hc h2.2
    simp [this]

/-- Witness of C1: a 3 by 2 bitmap, page 0, column 1, bit 1. -/
theorem convert_pixel_layout_witness :
    ((process_keyframe 3 2 [5, 2]).getD (0 * 3 + 1) 0).testBit 1
      = if 8 * 0 + 1 < 2 then ([5, 2].getD ((8 * 0 + 1) * ((3 + 7) / 8) + 1 / 8) 0).testBit (1 % 8)
        else false :=
  convert_pixel_layout 3 2 (by decide) (by decide) [5, 2] (by decide) 0 1 1
    (by decide) (by decide) (by decide)

/-- C2: for positive `W` and `H` the conversion produces a buffer of exactly
`W * ceil(H/8)` bytes, `buflen = bytes(H) * W`, and `arrange_mem` writes the
output positions `0`, ..., `buflen - 1` each exactly once, in this order, so that
`out_index` ends at `buflen`. -/
theorem convert_size (w h : Nat) (hw : 0 < w) (hh : 0 < h) (data : List Nat) :
    ((buflen (w : Int) (h : Int) : Nat) : Int) = bytes (h : Int) * (w : Int) ∧
    buflen (w : Int) (h : Int) = w * ((h + 7) / 8) ∧
    (convert (w : Int) (h : Int) data).length = w * ((h + 7) / 8) ∧
    (process_keyframe (w : Int) (h : Int) data).length = w * ((h + 7) / 8) ∧
    (arrange_mem_run (h : Int)
        (rotate_flip (w : Int) (h : Int) data
          (List.replicate (buflen (w : Int) (h : Int)) 0))
        (List.replicate (buflen (w : Int) (h : Int)) 0)
        (buflen (w : Int) (h : Int))).writes
      = List.range (buflen (w : Int) (h : Int)) ∧
    (arrange_mem_run (h : Int)
        (rotate_flip (w : Int) (h : Int) data
          (List.replicate (buflen (w : Int) (h : Int)) 0))
        (List.replicate (buflen (w : Int) (h : Int)) 0)
        (buflen (w : Int) (h : Int))).out_index
      = buflen (w : Int) (h : Int) := by
  have _ := hw
  have hl := (convert_spec w h hh data).1
  obtain ⟨a1, a2, _, _⟩ := arrange_mem_run_spec w h hh
    (rotate_flip (w : Int) (h : Int) data (List.replicate ((h + 7) / 8 * w) 0))
    (List.replicate ((h + 7) / 8 * w) 0)
  rw [process_keyframe_eq w h hh, hl, buflen_natCast, bytes_natCast, Nat.mul_comm w]
  exact ⟨by push_cast; rfl, rfl, rfl, rfl, a2, a1⟩

/-- Witness of C2: a 3 by 20 bitmap. -/
theorem convert_size_witness :
    (process_keyframe 3 20 (List.replicate 20 255)).length = 3 * ((20 + 7) / 8) :=
  (convert_size 3 20 (by decide) (by decide) (List.replicate 20 255)).2.2.2.1

/-- C8: for positive `W` and `H` with `H` not a multiple of 8, every byte of the
last page of the converted buffer has its bits `H mod 8`, ..., `7` equal to `0`,
whatever the source data; for `H = 20` there are 3 pages and the bits 4 to 7 of
every byte of the third page are `0`. -/
theorem last_page_padding (w h : Nat) (hw : 0 < w) (hh : 0 < h) (h8 : h % 8 ≠ 0)
    (data : List Nat) (x i : Nat) (hx : x < w) (hi : h % 8 ≤ i) (hi8 : i < 8) :
    ((process_keyframe (w : Int) (h : Int) data).getD
        (((h + 7) / 8 - 1) * w + x) 0).testBit i = false ∧
    (bytes 20 = 3 ∧ buflen (w : Int) 20 = 3 * w ∧
      ∀ j, 4 ≤ j → j < 8 →
        ((process_keyframe (w : Int) 20 data).getD (2 * w + x) 0).testBit j = false) := by
  have _ := hw
  have _ := hi8
  constructor
  · rw [convert_testBit w h hh data _ x i (by omega) hx]
    have : ¬ (i < 8 ∧ 8 * ((h + 7) / 8 - 1) + i < h) := by omega
    simp [this]
  · refine ⟨by decide, buflen_natCast w 20, ?_⟩
    intro j hj1 _
    have := convert_testBit w 20 (by decide) data 2 x j (by decide) hx
    rw [Nat.cast_ofNat] at this
    rw [this]
    have : ¬ (j < 8 ∧ 8 * 2 + j < 20) := by omega
    simp [this]

/-- Witness of C8: a 3 by 20 bitmap with every source bit set, column 1, bit 5. -/
theorem last_page_padding_witness :
    ((process_keyframe 3 20 (List.replicate 20 255)).getD
        (((20 + 7) / 8 - 1) * 3 + 1) 0).testBit 5 = false :=
  (last_page_padding 3 20 (by decide) (by decide) (by decide) (List.replicate 20 255) 1 5
    (by decide) (by decide) (by decide)).1

/-- C9: with `W = 16`, `H = 8` the all-zero bitmap converts to 16 zero bytes; the
bitmap with exactly pixel `(x = 3, y = 5)` set (bit 3 of byte `5*2 + 0`) converts
to the same buffer except for `0x20` at address 3; and the diff of the two
converted buffers is exactly the one-entry list `[(3, 0x20)]`. -/
theorem scenario_16x8 :
    process_keyframe 16 8 [0, 0, 0, 0, 0, 0, 0, 0, 0, 0, 0, 0, 0, 0, 0, 0]
      = [0, 0, 0, 0, 0, 0, 0, 0, 0, 0, 0, 0, 0, 0, 0, 0] ∧
    process_keyframe 16 8 [0, 0, 0, 0, 0, 0, 0, 0, 0, 0, 8, 0, 0, 0, 0, 0]
      = [0, 0, 0, 0x20, 0, 0, 0, 0, 0, 0, 0, 0, 0, 0, 0, 0] ∧
    print_frame_transistion
        (process_frame_transistion 16 8
          [0, 0, 0, 0, 0, 0, 0, 0, 0, 0, 0, 0, 0, 0, 0, 0]
          [0, 0, 0, 0, 0, 0, 0, 0, 0, 0, 8, 0, 0, 0, 0, 0])
      = [{ addr := 3, data := 0x20 }] ∧
    (process_frame_transistion 16 8
        [0, 0, 0, 0, 0, 0, 0, 0, 0, 0, 0, 0, 0, 0, 0, 0]
        [0, 0, 0, 0, 0, 0, 0, 0, 0, 0, 8, 0, 0, 0, 0, 0]).diffcnt = 1 := by
  decide

/-! ## Diff playback: claim C10 -/

/-- C10: for every address below 504 of the 84-column, 6-page display, the
coordinates computed by `nokia_lcd_update_diff` satisfy `y < 6`, `x < 84` and
`84*y + x = addr`; the entry `(90, 0x07)` decodes to page 1, column 6. -/
theorem update_diff_coordinates (addr : Nat) (h : addr < 504) :
    (update_diff_y addr < 6 ∧ update_diff_x addr < 84 ∧
      84 * update_diff_y addr + update_diff_x addr = addr) ∧
    (update_diff_y 90 = 1 ∧ update_diff_x 90 = 6 ∧
      nokia_lcd_update_diff { delay := 0, diffcnt := 1, diffs := [{ addr := 90, data := 0x07 }] }
        = [spi_op.cmd (0x80 ||| 6), spi_op.cmd (0x40 ||| 1), spi_op.dat 0x07]) := by
  refine ⟨?_, by decide⟩
  unfold update_diff_x update_diff_y
  omega

/-- Witness of C10: the address 503, the last byte of the display. -/
theorem update_diff_coordinates_witness :
    503 < 504 ∧ update_diff_y 503 < 6 ∧ update_diff_x 503 < 84 ∧
      84 * update_diff_y 503 + update_diff_x 503 = 503 :=
  ⟨by decide, (update_diff_coordinates 503 (by decide)).1⟩

/-! ## `bytes`, the 16-bit fields and the diff storage: claims C17, C19 and C20 -/

/-- C17: for every `value >= 0`, `bytes(value)` is `ceil(value/8)`, the least
`n >= 0` with `8*n >= value`; `bytes(0) = 0`, `bytes(8) = 1`, `bytes(20) = 3`,
`bytes(48) = 6`. -/
theorem bytes_is_ceil (value : Int) (h : 0 ≤ value) :
    bytes value = (value + 7) / 8 ∧
    0 ≤ bytes value ∧ value ≤ 8 * bytes value ∧
    (∀ n : Int, 0 ≤ n → value ≤ 8 * n → bytes value ≤ n) ∧
    (bytes 0 = 0 ∧ bytes 8 = 1 ∧ bytes 20 = 3 ∧ bytes 48 = 6) := by
  have hb : bytes value = (value + 7) / 8 := by
    unfold bytes
    simp only
    rw [Int.tdiv_eq_ediv h (by decide)]
    split <;> omega
  rw [hb]
  refine ⟨rfl, by omega, by omega, ?_, by decide⟩
  intro n _ hn
  omega

/-- Witness of C17: the value 20. -/
theorem bytes_is_ceil_witness : (0 : Int) ≤ 20 ∧ bytes 20 = (20 + 7) / 8 :=
  ⟨by decide, (bytes_is_ceil 20 (by decide)).1⟩

theorem differing_length_le (p q : List Nat) (n : Nat) : (differing p q n).length ≤ n := by
  unfold differing
  have := List.length_filter_le (fun i => decide (p.getD i 0 ≠ q.getD i 0)) (List.range n)
  rw [List.length_range] at this
  exact this

/-- C19: for equal-length buffers of at most 65535 bytes the 16-bit fields lose
nothing: the stored addresses are the scan indices at which an entry is
appended, all below the buffer length, and `diffcnt` is the number of entries
appended, at most the buffer length. -/
theorem diff_fields_fit (prev next : List Nat) (hlen : prev.length = next.length)
    (hsz : prev.length ≤ 65535) :
    (print_frame_transistion (diff_loop prev next prev.length)).map diff.addr
      = differing prev next prev.length ∧
    (∀ e ∈ print_frame_transistion (diff_loop prev next prev.length),
      e.addr < prev.length) ∧
    (diff_loop prev next prev.length).diffcnt = (differing prev next prev.length).length ∧
    (print_frame_transistion (diff_loop prev next prev.length)).length
      = (differing prev next prev.length).length ∧
    (diff_loop prev next prev.length).diffcnt ≤ prev.length := by
  have _ := hlen
  have hcnt : (differing prev next prev.length).length < 65536 := by
    have := differing_length_le prev next prev.length
    omega
  have haddr : ∀ i ∈ differing prev next prev.length, i < 65536 := by
    intro i hi
    have := differing_lt prev next prev.length i hi
    omega
  have hp := print_diff_loop_eq_expected prev next hcnt haddr
  have hc := (diff_loop_inv prev next prev.length hcnt haddr).1
  have hmap : (expected_diffs prev next prev.length).map diff.addr
      = differing prev next prev.length := by
    unfold expected_diffs
    rw [List.map_map]
    exact List.map_id _
  rw [hp, hc, hmap]
  refine ⟨rfl, ?_, rfl, ?_, differing_length_le _ _ _⟩
  · intro e he
    have : e.addr ∈ (expected_diffs prev next prev.length).map diff.addr :=
      List.mem_map_of_mem _ he
    rw [hmap] at this
    exact differing_lt _ _ _ _ this
  · unfold expected_diffs
    rw [List.length_map]

/-- Witness of C19: the buffers `[1, 2, 3]` and `[4, 2, 6]`. -/
theorem diff_fields_fit_witness :
    (print_frame_transistion (diff_loop [1, 2, 3] [4, 2, 6] [1, 2, 3].length)).map diff.addr
      = [0, 2] :=
  (diff_fields_fit [1, 2, 3] [4, 2, 6] (by decide) (by decide)).1

theorem frame_alloc_exact (fr : frame)
    (h : fr.diffs.length = 16 * ((fr.diffcnt + 15) / 16)) :
    (frame_alloc fr).diffs.length = 16 * (fr.diffcnt / 16 + 1) ∧
      (frame_alloc fr).diffs.take fr.diffcnt = fr.diffs.take fr.diffcnt := by
  unfold frame_alloc DIFF_REALLOC
  split
  · refine ⟨?_, ?_⟩
    · simp only [realloc_length]; omega
    · exact realloc_take _ _ _ (by omega) (by omega)
  · refine ⟨?_, rfl⟩
    omega

theorem append_diffs_snoc (fr : frame) (es : List (Nat × Nat)) (e : Nat × Nat) :
    append_diffs fr (es ++ [e]) = append_diff (append_diffs fr es) e.1 e.2 := by
  unfold append_diffs
  rw [List.foldl_append]
  rfl

/-- The invariant of the diff storage while fewer than 65536 entries have been
appended to the zeroed frame. -/
theorem append_diffs_inv (es : List (Nat × Nat)) : es.length < 65536 →
    (append_diffs { diffcnt := 0, diffs := [] } es).diffcnt = es.length ∧
    (append_diffs { diffcnt := 0, diffs := [] } es).diffs.length
      = 16 * ((es.length + 15) / 16) ∧
    (append_diffs { diffcnt := 0, diffs := [] } es).diffs.take es.length
      = es.map (fun e => ({ addr := e.1 % 65536, data := e.2 } : diff)) := by
  induction es using List.reverseRecOn with
  | nil => intro _; exact ⟨rfl, rfl, rfl⟩
  | append_singleton es e ih =>
    intro hl
    rw [List.length_append, List.length_singleton] at hl
    obtain ⟨i1, i2, i3⟩ := ih (by omega)
    rw [append_diffs_snoc]
    generalize append_diffs { diffcnt := 0, diffs := [] } es = fr at i1 i2 i3 ⊢
    obtain ⟨a1, a2⟩ := frame_alloc_exact fr (by rw [i1]; exact i2)
    rw [i1] at a1 a2
    unfold append_diff
    simp only [frame_alloc_diffcnt, i1, List.length_set, List.length_append,
      List.length_singleton, List.map_append, List.map_singleton]
    refine ⟨Nat.mod_eq_of_lt (by omega), by rw [a1]; omega, ?_⟩
    rw [take_succ_set _ _ _ (by rw [a1]; omega), a2, i3]

/-- C20: starting from the zeroed frame and appending entries as
`process_frame_transistion` does, as long as fewer than 65536 entries have been
appended the capacity after `frame_alloc` is the least multiple of 16 strictly
greater than `diffcnt`, the next write lands inside the allocation, and the
entries appended so far are all kept. -/
theorem frame_alloc_capacity (es : List (Nat × Nat)) (h : es.length < 65536) :
    (append_diffs { diffcnt := 0, diffs := [] } es).diffcnt = es.length ∧
    (frame_alloc (append_diffs { diffcnt := 0, diffs := [] } es)).diffs.length % 16 = 0 ∧
    (append_diffs { diffcnt := 0, diffs := [] } es).diffcnt
      < (frame_alloc (append_diffs { diffcnt := 0, diffs := [] } es)).diffs.length ∧
    (∀ m : Nat, m % 16 = 0 →
      (append_diffs { diffcnt := 0, diffs := [] } es).diffcnt < m →
      (frame_alloc (append_diffs { diffcnt := 0, diffs := [] } es)).diffs.length ≤ m) ∧
    (frame_alloc (append_diffs { diffcnt := 0, diffs := [] } es)).diffs.take es.length
      = es.map (fun e => ({ addr := e.1 % 65536, data := e.2 } : diff)) ∧
    (∀ (p q : List Nat) (fr : frame) (i : Nat), p.getD i 0 ≠ q.getD i 0 →
      diff_body p q fr i = append_diff fr i (q.getD i 0)) := by
  obtain ⟨i1, i2, i3⟩ := append_diffs_inv es h
  generalize append_diffs { diffcnt := 0, diffs := [] } es = fr at i1 i2 i3 ⊢
  obtain ⟨a1, a2⟩ := frame_alloc_exact fr (by rw [i1]; exact i2)
  rw [i1] at a1 a2
  rw [i1, a1, a2, i3]
  refine ⟨rfl, by omega, by omega, ?_, rfl, ?_⟩
  · intro m hm hlt
    omega
  · intro p q fr i hne
    unfold diff_body append_diff
    rw [if_pos hne]

/-- Witness of C20: seventeen entries, which need a second chunk of storage. -/
theorem frame_alloc_capacity_witness :
    (frame_alloc (append_diffs { diffcnt := 0, diffs := [] }
      (List.replicate 17 (5, 9)))).diffs.length % 16 = 0 ∧
    (append_diffs { diffcnt := 0, diffs := [] } (List.replicate 17 (5, 9))).diffcnt
      < (frame_alloc (append_diffs { diffcnt := 0, diffs := [] }
          (List.replicate 17 (5, 9)))).diffs.length :=
  ⟨(frame_alloc_capacity (List.replicate 17 (5, 9)) (by decide)).2.1,
    (frame_alloc_capacity (List.replicate 17 (5, 9)) (by decide)).2.2.1⟩

/-! ## Disabled full update and missing dimension check: claims C12 and C13 -/

theorem arrange_mem_body_zero (rc : Int) (n row : Nat) (st : am_state) (idx : Nat)
    (h : st.out = List.replicate n 0) :
    (arrange_mem_body rc (List.replicate n 0) row st idx).out = List.replicate n 0 := by
  unfold arrange_mem_body
  simp only [getD_replicate_zero]
  split <;> split <;> simp only [h, List.set_replicate_self]

theorem foldl_preserves {σ α : Type} (P : σ → Prop) (f : σ → α → σ)
    (hf : ∀ s a, P s → P (f s a)) (l : List α) : ∀ s, P s → P (l.foldl f s) := by
  induction l with
  | nil => intro s hs; exact hs
  | cons a l ih => intro s hs; exact ih _ (hf s a hs)

theorem arrange_mem_zero (H : Int) (n len : Nat) :
    arrange_mem H (List.replicate n 0) (List.replicate n 0) len = List.replicate n 0 := by
  unfold arrange_mem arrange_mem_run
  apply foldl_preserves (fun st : am_state => st.out = List.replicate n 0)
  · intro st row hst
    unfold arrange_mem_row
    apply foldl_preserves (fun st : am_state => st.out = List.replicate n 0)
    · intro s idx hs
      exact arrange_mem_body_zero _ _ _ _ _ hs
    · exact hst
  · rfl

/-- With a non-positive width the loops of `rotate_flip` do not run, and the
converted buffer is the zeroed buffer of `buflen` bytes. -/
theorem convert_nonpos_width (W H : Int) (hW : W ≤ 0) (data : List Nat) :
    convert W H data = List.replicate (buflen W H) 0 := by
  unfold convert rotate_flip
  rw [Int.toNat_eq_zero.mpr hW]
  exact arrange_mem_zero _ _ _

/-- C13 (as amended): the converter has no dimension check and no failure path.
For `W <= 0` with `bytes(H) * W >= 0` (so for `W = 0`) the conversion is run:
`process_keyframe` prints `bytes(H) * W` zero bytes, `process_frame_transistion`
prints no entry, and `main` returns `0`. -/
theorem convert_unchecked (W H : Int) (hW : W ≤ 0) (hprod : 0 ≤ bytes H * W)
    (frame1_data frame2_data : List Nat) :
    main_keyframe W H frame1_data = (List.replicate (bytes H * W).toNat 0, 0) ∧
    main_transistion W H frame1_data frame2_data = ([], 0) := by
  have _ := hprod
  constructor
  · unfold main_keyframe process_keyframe print_keyframe
    rw [convert_nonpos_width W H hW,
      map_getD_range _ _ _ (by rw [List.length_replicate]),
      List.take_of_length_le (by rw [List.length_replicate])]
    rfl
  · unfold main_transistion process_frame_transistion
    rw [convert_nonpos_width W H hW, convert_nonpos_width W H hW,
      diff_loop_agree _ _ _ (fun _ _ => rfl)]
    rfl

/-- Witness of C13 (as amended): width 0 and height 8 give an empty keyframe. -/
theorem convert_unchecked_witness :
    (0 : Int) ≤ 0 ∧ main_keyframe 0 8 [1, 2, 3] = ([], 0) :=
  ⟨by decide, (convert_unchecked 0 8 (by decide) (by decide) [1, 2, 3] []).1⟩

/-- C13 fails as stated: with `W = -2` and `H = -16` (so `bytes(H) = -2` and
`buflen = 4`) the conversion is run, `main` returns `0` and four zero bytes are
printed. -/
theorem convert_unchecked_counterexample :
    ((-2 : Int) ≤ 0 ∨ (-16 : Int) ≤ 0) ∧ bytes (-16) = -2 ∧ buflen (-2) (-16) = 4 ∧
    main_keyframe (-2) (-16) [] = ([0, 0, 0, 0], 0) := by
  decide

/-! ## Diff playback and full-screen transfer: claims C11 and C14 -/

theorem lor_x_small : ∀ x, x < 84 → (0x80 ||| x) % 256 = 0x80 ||| x := by decide

theorem lor_y_small : ∀ y, y < 6 → (0x40 ||| y) % 256 = 0x40 ||| y := by decide

theorem update_diff_xy (addr : Nat) (h : addr < 504) :
    update_diff_y addr = addr / 84 ∧ update_diff_x addr = addr - 84 * (addr / 84) := by
  unfold update_diff_x update_diff_y
  omega

theorem update_diff_body_eq (fr : nokia_gfx_frame) (ops : List spi_op) (i : Nat)
    (d : nokia_gfx_diff) (hd : fr.diffs.getD i { addr := 0, data := 0 } = d)
    (ha : d.addr < 504) :
    update_diff_body fr ops i = ops ++ expected_update d := by
  unfold update_diff_body expected_update
  simp only
  rw [hd]
  obtain ⟨hy, hx⟩ := update_diff_xy _ ha
  rw [hy, hx, lor_x_small _ (by omega), lor_y_small _ (by omega)]

/-- The loop of `nokia_lcd_update_diff` after `n` entries. -/
theorem update_diff_loop (fr : nokia_gfx_frame) : ∀ n : Nat, n ≤ fr.diffs.length →
    (∀ e ∈ fr.diffs.take n, e.addr < 504) →
    (List.range n).foldl (update_diff_body fr) [] = (fr.diffs.take n).flatMap expected_update ∧
    ((List.range n).foldl (update_diff_body fr) []).length = 3 * n := by
  intro n
  induction n with
  | zero => intro _ _; exact ⟨rfl, rfl⟩
  | succ n ih =>
    intro hn ha
    have hlt : n < fr.diffs.length := by omega
    have htake : fr.diffs.take (n + 1) = fr.diffs.take n ++ [fr.diffs.get ⟨n, hlt⟩] := by
      rw [List.take_succ, List.getElem?_eq_getElem hlt]
      rfl
    rw [htake] at ha
    obtain ⟨i1, i2⟩ := ih (by omega) (fun e he => ha e (List.mem_append_left _ he))
    have hb := update_diff_body_eq fr ((List.range n).foldl (update_diff_body fr) []) n
      (fr.diffs.get ⟨n, hlt⟩) (List.getD_eq_getElem _ _ hlt)
      (ha _ (List.mem_append_right _ (List.mem_singleton_self _)))
    rw [foldl_range_succ, hb, htake, List.flatMap_append, List.flatMap_singleton, i1]
    refine ⟨rfl, ?_⟩
    rw [List.length_append, ← i1, i2]
    unfold expected_update
    simp only [List.length_cons, List.length_nil]
    omega

/-- C11: for a frame whose `diffcnt` entries all have `addr < 504`,
`nokia_lcd_update_diff` sends, for each entry in stored order, the commands
`0x80|x` and `0x40|y` (with `y = addr/84`, `x = addr - 84*y`) and then the value
of the entry as data, and nothing else: `3 * diffcnt` transport operations. -/
theorem update_diff_transport (fr : nokia_gfx_frame) (hcnt : fr.diffcnt ≤ fr.diffs.length)
    (haddr : ∀ e ∈ fr.diffs.take fr.diffcnt, e.addr < 504) :
    nokia_lcd_update_diff fr = (fr.diffs.take fr.diffcnt).flatMap expected_update ∧
    (nokia_lcd_update_diff fr).length = 3 * fr.diffcnt :=
  update_diff_loop fr fr.diffcnt hcnt haddr

/-- Witness of C11: a frame of two entries, at the addresses 90 and 503. -/
theorem update_diff_transport_witness :
    nokia_lcd_update_diff
        { delay := 0, diffcnt := 2,
          diffs := [{ addr := 90, data := 0x07 }, { addr := 503, data := 0xff }] }
      = [spi_op.cmd (0x80 ||| 6), spi_op.cmd (0x40 ||| 1), spi_op.dat 0x07,
          spi_op.cmd (0x80 ||| 83), spi_op.cmd (0x40 ||| 5), spi_op.dat 0xff] :=
  (update_diff_transport
    { delay := 0, diffcnt := 2,
      diffs := [{ addr := 90, data := 0x07 }, { addr := 503, data := 0xff }] }
    (by decide) (by decide)).1

theorem foldl_append_singleton {α β : Type} (f : α → β) (l : List α) : ∀ init : List β,
    l.foldl (fun o x => o ++ [f x]) init = init ++ l.map f := by
  induction l with
  | nil => intro init; simp
  | cons a l ih => intro init; simp [ih]

theorem fullscreen_page_eq (data : List Nat) (ops : List spi_op) (y : Nat) (hy : y < 6) :
    fullscreen_page data ops y = ops ++ expected_page data y := by
  unfold fullscreen_page expected_page LCD_X_RES
  rw [foldl_append_singleton (fun x => spi_op.dat (data.getD (y * 84 + x) 0)),
    lor_y_small y hy, Nat.mul_comm y 84, List.append_assoc]

/-- The outer loop of `nokia_lcd_fullscreen` after `n` pages. -/
theorem fullscreen_loop (data : List Nat) : ∀ n : Nat, n ≤ 6 →
    (List.range n).foldl (fullscreen_page data) [] = (List.range n).flatMap (expected_page data) := by
  intro n
  induction n with
  | zero => intro _; rfl
  | succ n ih =>
    intro hn
    rw [foldl_range_succ, ih (by omega), fullscreen_page_eq _ _ _ (by omega), List.range_succ,
      List.flatMap_append, List.flatMap_singleton]

theorem spi_data_bytes_page (data : List Nat) (y : Nat) :
    spi_data_bytes (expected_page data y)
      = (List.range 84).map (fun x => data.getD (84 * y + x) 0) := by
  unfold spi_data_bytes expected_page
  rw [List.filterMap_append, List.filterMap_map]
  simp only [List.filterMap_cons, List.filterMap_nil, List.nil_append]
  exact congrFun (List.filterMap_eq_map _) _

theorem flatMap_pages (f : Nat → Nat) : ∀ n : Nat,
    (List.range n).flatMap (fun y => (List.range 84).map (fun x => f (84 * y + x)))
      = (List.range (84 * n)).map f := by
  intro n
  induction n with
  | zero => rfl
  | succ n ih =>
    rw [List.range_succ, List.flatMap_append, List.flatMap_singleton, ih, Nat.mul_succ,
      List.range_add, List.map_append, List.map_map]
    rfl

theorem flatMap_length_const {β : Type} (g : Nat → List β) (c : Nat)
    (hg : ∀ y, (g y).length = c) : ∀ n : Nat, ((List.range n).flatMap g).length = n * c := by
  intro n
  induction n with
  | zero => rw [Nat.zero_mul]; rfl
  | succ n ih =>
    rw [List.range_succ, List.flatMap_append, List.flatMap_singleton, List.length_append, ih,
      hg, Nat.succ_mul]

/-- C14: for a 504-byte image, `nokia_lcd_fullscreen` sends, for each page
`y = 0..5` in increasing order, the cursor commands `0x80` and `0x40|y` followed by
the 84 data bytes `data[84*y + 0]`, ..., `data[84*y + 83]`; the data bytes sent,
in order, are exactly `data[0]`, ..., `data[503]`. -/
theorem fullscreen_transport (data : List Nat) (hlen : data.length = 504) :
    nokia_lcd_fullscreen data = (List.range 6).flatMap (expected_page data) ∧
    spi_data_bytes (nokia_lcd_fullscreen data) = data ∧
    (nokia_lcd_fullscreen data).length = 6 * (2 + 84) := by
  have h1 : nokia_lcd_fullscreen data = (List.range 6).flatMap (expected_page data) :=
    fullscreen_loop data 6 (Nat.le_refl 6)
  refine ⟨h1, ?_, ?_⟩
  · rw [h1]
    unfold spi_data_bytes
    rw [List.filterMap_flatMap]
    have hstep : ∀ y, List.filterMap (fun op => match op with
          | spi_op.dat b => some b
          | spi_op.cmd _ => none) (expected_page data y)
        = (List.range 84).map (fun x => data.getD (84 * y + x) 0) :=
      fun y => spi_data_bytes_page data y
    simp only [hstep]
    rw [flatMap_pages (fun i => data.getD i 0) 6,
      map_getD_range data 0 (84 * 6) (by rw [hlen]),
      List.take_of_length_le (by rw [hlen])]
  · rw [h1, flatMap_length_const _ 86 (fun y => by simp [expected_page])]

/-- Witness of C14: the image whose byte at address `i` is `i mod 256`. -/
theorem fullscreen_transport_witness :
    spi_data_bytes (nokia_lcd_fullscreen ((List.range 504).map (fun i => i % 256)))
      = (List.range 504).map (fun i => i % 256) :=
  (fullscreen_transport ((List.range 504).map (fun i => i % 256))
    (by rw [List.length_map, List.length_range])).2.1

/-! ## The access logs of `rotate_flip` -/

theorem rotate_flip_body_trace_st (W H : Int) (data : List Nat) (x : Nat) (l : List Nat) :
    ∀ t : rf_trace,
    (l.foldl (rotate_flip_body_trace W H data x) t).st
      = l.foldl (rotate_flip_body W H data x) t.st := by
  induction l with
  | nil => intro t; rfl
  | cons a l ih => intro t; rw [List.foldl_cons, List.foldl_cons, ih]; rfl

theorem rotate_flip_column_trace_st (W H : Int) (data : List Nat) (t : rf_trace) (x : Nat) :
    (rotate_flip_column_trace W H data t x).st = rotate_flip_column W H data t.st x := by
  unfold rotate_flip_column_trace rotate_flip_column
  simp only [rotate_flip_body_trace_st]

theorem rotate_flip_columns_trace_st (W H : Int) (data : List Nat) (l : List Nat) :
    ∀ t : rf_trace,
    (l.foldl (rotate_flip_column_trace W H data) t).st
      = l.foldl (rotate_flip_column W H data) t.st := by
  induction l with
  | nil => intro t; rfl
  | cons a l ih =>
    intro t
    rw [List.foldl_cons, List.foldl_cons, ih, rotate_flip_column_trace_st]

/-- The instrumented `rotate_flip` computes the same buffer as `rotate_flip`. -/
theorem rotate_flip_trace_out (W H : Int) (data o : List Nat) :
    (rotate_flip_trace W H data o).st.out = rotate_flip W H data o := by
  unfold rotate_flip_trace rotate_flip
  rw [rotate_flip_columns_trace_st]

/-- The access logs of the inner loop of `rotate_flip` after `m` rows of column `x`. -/
theorem rotate_flip_rows_trace (w h : Nat) (data : List Nat) (x : Nat) (t0 : rf_trace) :
    ∀ m : Nat, m ≤ h →
    ((List.range m).foldl (rotate_flip_body_trace (w : Int) (h : Int) data x) t0).reads
      = t0.reads ++ (List.range m).map (fun y => ((y * ((w + 7) / 8) + x / 8 : Nat) : Int)) ∧
    ((List.range m).foldl (rotate_flip_body_trace (w : Int) (h : Int) data x) t0).writes
      = t0.writes ++ (List.range' (x * ((h + 7) / 8)) (min (m / 8) ((h - 1) / 8))).map
          (fun n : Nat => (n : Int)) := by
  intro m
  induction m with
  | zero =>
    intro _
    have hz : min (0 / 8) ((h - 1) / 8) = 0 := by omega
    rw [hz]
    simp
  | succ m ih =>
    intro hm
    obtain ⟨i1, i2⟩ := ih (by omega)
    rw [foldl_range_succ]
    generalize (List.range m).foldl (rotate_flip_body_trace (w : Int) (h : Int) data x) t0 = t
      at i1 i2 ⊢
    have hk : min (m / 8) ((h - 1) / 8) = m / 8 := by omega
    rw [hk] at i2
    have e5 : (m - m / 8 * 8 = 7 ∧ (m : Int) < (h : Int) - 1) ↔ (m % 8 = 7 ∧ m + 1 < h) := by
      omega
    unfold rotate_flip_body_trace
    simp only [bytes_natCast, e5]
    constructor
    · rw [i1, List.range_succ, List.map_append, List.map_singleton, List.append_assoc]
      push_cast
      rfl
    · by_cases hf : m % 8 = 7 ∧ m + 1 < h
      · rw [if_pos hf]
        have hk1 : min ((m + 1) / 8) ((h - 1) / 8) = m / 8 + 1 := by omega
        rw [hk1, i2, range'_succ_right, List.map_append, List.map_singleton, List.append_assoc]
        push_cast
        rfl
      · rw [if_neg hf]
        have hk1 : min ((m + 1) / 8) ((h - 1) / 8) = m / 8 := by omega
        rw [hk1, i2]

/-- The access logs of one pass of the outer loop of `rotate_flip`. -/
theorem rotate_flip_column_trace_logs (w h : Nat) (hh : 0 < h) (data : List Nat) (x : Nat)
    (t : rf_trace) :
    (rotate_flip_column_trace (w : Int) (h : Int) data t x).reads
      = t.reads ++ (List.range h).map (fun y => ((y * ((w + 7) / 8) + x / 8 : Nat) : Int)) ∧
    (rotate_flip_column_trace (w : Int) (h : Int) data t x).writes
      = t.writes ++ (List.range' (x * ((h + 7) / 8)) ((h + 7) / 8)).map (fun n : Nat => (n : Int)) := by
  obtain ⟨l1, l2⟩ := rotate_flip_rows_trace w h data x
    { t with st := { t.st with out_byte := 0 } } h (Nat.le_refl _)
  obtain ⟨_, r2, _, _⟩ := rotate_flip_rows w h data x t.st.out t.st.height_byte h (Nat.le_refl _)
  have r2 := r2 hh
  have hk : min (h / 8) ((h - 1) / 8) = (h - 1) / 8 := by omega
  rw [hk] at l2
  have hb : (h + 7) / 8 = (h - 1) / 8 + 1 := by omega
  unfold rotate_flip_column_trace
  simp only [Int.toNat_natCast, bytes_natCast, rotate_flip_body_trace_st]
  refine ⟨l1, ?_⟩
  rw [l2, r2]
  simp only
  rw [List.append_assoc, hb, range'_succ_right, List.map_append, List.map_singleton]
  push_cast
  rfl

/-- The write log of `rotate_flip` after `n` columns: the positions
`0`, ..., `n * ceil(h/8) - 1`, each once, in increasing order; and every index
read lies inside a bitmap of `h` rows of `ceil(w/8)` bytes. -/
theorem rotate_flip_columns_trace_logs (w h : Nat) (hh : 0 < h) (data : List Nat)
    (t0 : rf_trace) (hr0 : t0.reads = []) (hw0 : t0.writes = []) : ∀ n : Nat, n ≤ w →
    ((List.range n).foldl (rotate_flip_column_trace (w : Int) (h : Int) data) t0).writes
      = (List.range (n * ((h + 7) / 8))).map (fun j : Nat => (j : Int)) ∧
    ∀ r ∈ ((List.range n).foldl (rotate_flip_column_trace (w : Int) (h : Int) data) t0).reads,
      0 ≤ r ∧ r < ((h * ((w + 7) / 8) : Nat) : Int) := by
  intro n
  induction n with
  | zero =>
    intro _
    rw [List.range_zero, List.foldl_nil, hr0, hw0, Nat.zero_mul, List.range_zero]
    exact ⟨rfl, fun r hr => absurd hr (List.not_mem_nil r)⟩
  | succ n ih =>
    intro hn
    obtain ⟨i1, i2⟩ := ih (by omega)
    rw [foldl_range_succ]
    generalize (List.range n).foldl (rotate_flip_column_trace (w : Int) (h : Int) data) t0 = t
      at i1 i2 ⊢
    obtain ⟨c1, c2⟩ := rotate_flip_column_trace_logs w h hh data n t
    rw [c1, c2, i1]
    constructor
    · rw [Nat.succ_mul, List.range_add, List.map_append, List.range'_eq_map_range]
    · intro r hr
      rw [List.mem_append] at hr
      rcases hr with hr | hr
      · exact i2 r hr
      · rw [List.mem_map] at hr
        obtain ⟨y, hy, rfl⟩ := hr
        rw [List.mem_range] at hy
        have hx8 : n / 8 < (w + 7) / 8 := by omega
        have := index_lt_mul h ((w + 7) / 8) y (n / 8) hy hx8
        constructor
        · exact Int.natCast_nonneg _
        · exact_mod_cast this

/-! ## The two stages and their bounds: claims C15, C16 and C18 -/

/-- C15: for positive `W` and `H`, after `rotate_flip` bit `i` of the
intermediate byte at column `x`, band `k` is bit `x mod 8` of source byte
`ceil(W/8)*(8k+i) + x/8` when `8k+i < H`, and `0` otherwise; and every one of the
`W*ceil(H/8)` intermediate positions is written (the write log is
`0`, ..., `W*ceil(H/8) - 1`). -/
theorem rotate_flip_stage (w h : Nat) (hw : 0 < w) (hh : 0 < h) (data o : List Nat)
    (ho : o.length = w * ((h + 7) / 8)) :
    (rotate_flip (w : Int) (h : Int) data o).length = w * ((h + 7) / 8) ∧
    (∀ x k i, x < w → k < (h + 7) / 8 → i < 8 →
      ((rotate_flip (w : Int) (h : Int) data o).getD (x * ((h + 7) / 8) + k) 0).testBit i
        = if 8 * k + i < h
          then (data.getD ((w + 7) / 8 * (8 * k + i) + x / 8) 0).testBit (x % 8)
          else false) ∧
    (rotate_flip_trace (w : Int) (h : Int) data o).st.out
      = rotate_flip (w : Int) (h : Int) data o ∧
    (rotate_flip_trace (w : Int) (h : Int) data o).writes
      = (List.range (w * ((h + 7) / 8))).map (fun j : Nat => (j : Int)) := by
  have _ := hw
  obtain ⟨r1, r2⟩ := rotate_flip_spec w h hh data o
  refine ⟨by rw [r1, ho], ?_, rotate_flip_trace_out _ _ _ _, ?_⟩
  · intro x k i hx hk hi
    rw [r2 x k hx hk (by rw [ho]; exact index_lt_mul _ _ _ _ hx hk),
      acc_byte_testBit _ _ _ _ _ (by omega), Nat.mul_comm ((w + 7) / 8)]
    by_cases hc : 8 * k + i < h
    · rw [if_pos hc]
      have : i < min 8 (h - 8 * k) := by omega
      simp [this]
    · rw [if_neg hc]
      have : ¬ i < min 8 (h - 8 * k) := by omega
      simp [this]
  · have := (rotate_flip_columns_trace_logs w h hh data
      { st := { out := o, out_byte := 0, height_byte := 0 }, reads := [], writes := [] }
      rfl rfl w (Nat.le_refl _)).1
    unfold rotate_flip_trace
    rw [Int.toNat_natCast]
    exact this

/-- Witness of C15: a 3 by 2 bitmap, column 1, band 0, bit 1. -/
theorem rotate_flip_stage_witness :
    (rotate_flip 3 2 [5, 2] [0, 0, 0]).length = 3 * ((2 + 7) / 8) ∧
    (rotate_flip_trace 3 2 [5, 2] [0, 0, 0]).writes = [0, 1, 2] :=
  ⟨(rotate_flip_stage 3 2 (by decide) (by decide) [5, 2] [0, 0, 0] (by decide)).1,
    (rotate_flip_stage 3 2 (by decide) (by decide) [5, 2] [0, 0, 0] (by decide)).2.2.2⟩

/-- C18: for positive `W` and `H` all buffer indices used by the conversion are
in bounds: every read index of `rotate_flip` is below `H*ceil(W/8)`, every write
index of `rotate_flip` is below `W*ceil(H/8)`, and every write index `out_index`
of `arrange_mem` is below `buflen = W*ceil(H/8)`. -/
theorem convert_in_bounds (w h : Nat) (hw : 0 < w) (hh : 0 < h) (data : List Nat) :
    (∀ r ∈ (rotate_flip_trace (w : Int) (h : Int) data
        (List.replicate (buflen (w : Int) (h : Int)) 0)).reads,
      0 ≤ r ∧ r < ((h * ((w + 7) / 8) : Nat) : Int)) ∧
    (∀ r ∈ (rotate_flip_trace (w : Int) (h : Int) data
        (List.replicate (buflen (w : Int) (h : Int)) 0)).writes,
      0 ≤ r ∧ r < ((w * ((h + 7) / 8) : Nat) : Int)) ∧
    (∀ j ∈ (arrange_mem_run (h : Int)
        (rotate_flip (w : Int) (h : Int) data
          (List.replicate (buflen (w : Int) (h : Int)) 0))
        (List.replicate (buflen (w : Int) (h : Int)) 0)
        (buflen (w : Int) (h : Int))).writes,
      j < buflen (w : Int) (h : Int)) ∧
    buflen (w : Int) (h : Int) = w * ((h + 7) / 8) := by
  have _ := hw
  obtain ⟨l1, l2⟩ := rotate_flip_columns_trace_logs w h hh data
      { st := { out := List.replicate (buflen (w : Int) (h : Int)) 0, out_byte := 0,
                height_byte := 0 },
        reads := [], writes := [] }
      rfl rfl w (Nat.le_refl _)
  obtain ⟨_, a2, _, _⟩ := arrange_mem_run_spec w h hh
    (rotate_flip (w : Int) (h : Int) data (List.replicate ((h + 7) / 8 * w) 0))
    (List.replicate ((h + 7) / 8 * w) 0)
  refine ⟨?_, ?_, ?_, by rw [buflen_natCast, Nat.mul_comm]⟩
  · unfold rotate_flip_trace
    rw [Int.toNat_natCast]
    exact l2
  · unfold rotate_flip_trace
    rw [Int.toNat_natCast, l1]
    intro r hr
    rw [List.mem_map] at hr
    obtain ⟨j, hj, rfl⟩ := hr
    rw [List.mem_range] at hj
    exact ⟨Int.natCast_nonneg _, by exact_mod_cast hj⟩
  · rw [buflen_natCast, a2]
    intro j hj
    exact List.mem_range.mp hj

/-- Witness of C18: a 3 by 20 bitmap, read below index 20 and written below
index 9. -/
theorem convert_in_bounds_witness :
    (∀ r ∈ (rotate_flip_trace 3 20 (List.replicate 20 255)
        (List.replicate (buflen 3 20) 0)).reads, 0 ≤ r ∧ r < 20) ∧
    (∀ r ∈ (rotate_flip_trace 3 20 (List.replicate 20 255)
        (List.replicate (buflen 3 20) 0)).writes, 0 ≤ r ∧ r < 9) :=
  ⟨(convert_in_bounds 3 20 (by decide) (by decide) (List.replicate 20 255)).1,
    (convert_in_bounds 3 20 (by decide) (by decide) (List.replicate 20 255)).2.1⟩

theorem flatMap_blocks {β : Type} (c : Nat) (f : Nat → β) : ∀ n : Nat,
    (List.range n).flatMap (fun y => (List.range c).map (fun x => f (c * y + x)))
      = (List.range (c * n)).map f := by
  intro n
  induction n with
  | zero => rfl
  | succ n ih =>
    rw [List.range_succ, List.flatMap_append, List.flatMap_singleton, ih, Nat.mul_succ,
      List.range_add, List.map_append, List.map_map]
    rfl

theorem flatMap_map_swap {α β γ : Type} (l1 : List α) (l2 : List β) (F : α → β → γ) :
    List.Perm (l1.flatMap (fun a => l2.map (fun b => F a b)))
      (l2.flatMap (fun b => l1.map (fun a => F a b))) := by
  rw [← Multiset.coe_eq_coe, ← Multiset.coe_bind, ← Multiset.coe_bind]
  simp only [← Multiset.map_coe, ← Multiset.bind_singleton]
  exact Multiset.bind_bind _ _

/-- A buffer of `a * b` bytes, cut into `a` blocks of `b` bytes. -/
theorem eq_flatMap_blocks (l : List Nat) (a b : Nat) (hl : l.length = b * a) :
    l = (List.range a).flatMap (fun y => (List.range b).map (fun x => l.getD (b * y + x) 0)) := by
  rw [flatMap_blocks b (fun i => l.getD i 0) a, map_getD_range l 0 (b * a) (by rw [hl]),
    List.take_of_length_le (by rw [hl])]

/-- C16: for `W >= 1`, `row_count = ceil(H/8) >= 1` and buffers of
`buflen = row_count*W` bytes, `arrange_mem` produces
`out[band*W + column] = in[column*row_count + band]` for all `band < row_count` and
`column < W`; the output is a permutation of the input. -/
theorem arrange_mem_stage (w h : Nat) (hw : 1 ≤ w) (hh : 1 ≤ h) (inp o : List Nat)
    (hinp : inp.length = (h + 7) / 8 * w) (ho : o.length = (h + 7) / 8 * w) :
    bytes (h : Int) = (((h + 7) / 8 : Nat) : Int) ∧ 1 ≤ (h + 7) / 8 ∧
    (arrange_mem (h : Int) inp o ((h + 7) / 8 * w)).length = (h + 7) / 8 * w ∧
    (∀ band column, band < (h + 7) / 8 → column < w →
      (arrange_mem (h : Int) inp o ((h + 7) / 8 * w)).getD (band * w + column) 0
        = inp.getD (column * ((h + 7) / 8) + band) 0) ∧
    List.Perm (arrange_mem (h : Int) inp o ((h + 7) / 8 * w)) inp := by
  have _ := hw
  obtain ⟨_, _, a3, a4⟩ := arrange_mem_run_spec w h hh inp o
  have hpt : ∀ band column, band < (h + 7) / 8 → column < w →
      (arrange_mem (h : Int) inp o ((h + 7) / 8 * w)).getD (band * w + column) 0
        = inp.getD (column * ((h + 7) / 8) + band) 0 := by
    intro band column hb hc
    exact a4 band column hb hc (by rw [ho]; exact index_lt_mul _ _ _ _ hb hc)
  have hlen : (arrange_mem (h : Int) inp o ((h + 7) / 8 * w)).length = (h + 7) / 8 * w := by
    unfold arrange_mem; rw [a3, ho]
  refine ⟨bytes_natCast h, by omega, hlen, hpt, ?_⟩
  have e1 := eq_flatMap_blocks (arrange_mem (h : Int) inp o ((h + 7) / 8 * w))
    ((h + 7) / 8) w (by rw [hlen, Nat.mul_comm])
  have e2 := eq_flatMap_blocks inp w ((h + 7) / 8) hinp
  have e3 : (List.range ((h + 7) / 8)).flatMap (fun y => (List.range w).map (fun x =>
        (arrange_mem (h : Int) inp o ((h + 7) / 8 * w)).getD (w * y + x) 0))
      = (List.range ((h + 7) / 8)).flatMap (fun y => (List.range w).map (fun x =>
        inp.getD ((h + 7) / 8 * x + y) 0)) := by
    apply List.flatMap_congr
    intro y hy
    apply List.map_congr_left
    intro x hx
    rw [Nat.mul_comm w y, hpt y x (List.mem_range.mp hy) (List.mem_range.mp hx),
      Nat.mul_comm x]
  rw [e1, e3]
  conv_rhs => rw [e2]
  exact flatMap_map_swap _ _ (fun y x => inp.getD ((h + 7) / 8 * x + y) 0)

/-- Witness of C16: two bands of three columns. -/
theorem arrange_mem_stage_witness :
    arrange_mem 12 [10, 11, 20, 21, 30, 31] [0, 0, 0, 0, 0, 0] 6 = [10, 20, 30, 11, 21, 31]
      ∧ List.Perm (arrange_mem 12 [10, 11, 20, 21, 30, 31] [0, 0, 0, 0, 0, 0] ((12 + 7) / 8 * 3))
          [10, 11, 20, 21, 30, 31] :=
  ⟨by decide, (arrange_mem_stage 3 12 (by decide) (by decide) [10, 11, 20, 21, 30, 31]
    [0, 0, 0, 0, 0, 0] (by decide) (by decide)).2.2.2.2⟩

end Xbm2Nokia
